import Mathlib

/-!
Verification of the aktenfux frontmatter core: a shallow embedding of the
Rust sources (src/frontmatter.rs, src/filter.rs, src/logger.rs,
src/yaml_compat.rs) over `List Char` strings, together with theorems that
settle the specification's claims about extraction, lenient repair,
filtering, statistics and diagnostics.
-/

namespace Aktenfux

/-- Text is embedded as a list of characters (Rust `&str` / `String`). -/
abbrev Str := List Char

/-- Shorthand turning a Lean string literal into the `List Char` embedding. -/
def strL (s : String) : Str := s.toList

/-- Model of Rust `char::is_whitespace` (the Unicode White_Space property). -/
def rustIsWhitespace (c : Char) : Bool :=
  c == ' ' || c == '\t' || c == '\n' || c == '\u000B' || c == '\u000C' || c == '\r' ||
  c == '\u0085' || c == '\u00A0' || c == '\u1680' ||
  ('\u2000' ≤ c && c ≤ '\u200A') ||
  c == '\u2028' || c == '\u2029' || c == '\u202F' || c == '\u205F' || c == '\u3000'

/-- Model of Rust `str::trim_start`. -/
def trimStart (s : Str) : Str := s.dropWhile rustIsWhitespace

/-- Model of Rust `str::trim_end`. -/
def trimEnd (s : Str) : Str := (s.reverse.dropWhile rustIsWhitespace).reverse

/-- Model of Rust `str::trim`. -/
def trim (s : Str) : Str := trimEnd (trimStart s)

/-- Model of Rust `str::starts_with` for a string pattern. -/
def startsWithStr : Str → Str → Bool
  | _, [] => true
  | [], _ :: _ => false
  | c :: cs, p :: ps => c == p && startsWithStr cs ps

/-- Model of Rust `str::contains` for a string pattern (substring search). -/
def containsSub : Str → Str → Bool
  | s, sub =>
    startsWithStr s sub ||
      match s with
      | [] => false
      | _ :: t => containsSub t sub

/-- Model of Rust `str::find(':')`-style search: index of the first occurrence
of a character, if any. -/
def findCharIdx (c : Char) : Str → Option Nat
  | [] => none
  | d :: ds =>
    if d == c then some 0
    else (findCharIdx c ds).map (· + 1)

/-- Splits a string at every occurrence of a character, keeping empty
segments. -/
def splitChar (c : Char) : Str → List Str
  | [] => [[]]
  | d :: ds =>
    if d == c then [] :: splitChar c ds
    else
      match splitChar c ds with
      | [] => [[d]]
      | seg :: rest => (d :: seg) :: rest

/-- Removes one trailing carriage return, as Rust `str::lines` does for a
line terminated by `\r\n`. -/
def stripCR (l : Str) : Str :=
  if l.getLast? == some '\r' then l.dropLast else l

/-- Model of Rust `str::lines`: split at `\n`, drop one trailing `\r` from
each line that was terminated by `\n`, and produce no final empty line for a
text ending in `\n`. -/
def rustLines (s : Str) : List Str :=
  match s with
  | [] => []
  | _ :: _ =>
    let segs := splitChar '\n' s
    if segs.getLast? == some ([] : Str) then segs.dropLast.map stripCR
    else segs.dropLast.map stripCR ++ [segs.getLastD []]

/-- Model of joining lines with `"\n"` (Rust `Vec::join("\n")`). -/
def joinLines (xs : List Str) : Str := (xs.intersperse ['\n']).flatten

/-- Model of `" ".repeat(n)`. -/
def spacesRep (n : Nat) : Str := List.replicate n ' '

/-- ASCII lower-casing of one character, modelling the effect of Rust
`str::to_lowercase` on the ASCII range (the only range the claims exercise). -/
def charToLower (c : Char) : Char :=
  if 'A' ≤ c && c ≤ 'Z' then Char.ofNat (c.toNat + 32) else c

/-- Model of Rust `str::to_lowercase` (ASCII range). -/
def strToLower (s : Str) : Str := s.map charToLower

/-! ## The Yaml value model (yaml_rust2::Yaml, as used by src/yaml_compat.rs) -/

/-- The tagged-union value type of the yaml_rust2 crate, as consumed by the
repository: `Real` is string-preserving, `Integer` is a 64-bit integer
(modelled as `Int`; no claim exercises overflow), `Hash` keys are arbitrary
Yaml values, and `Alias`/`BadValue` are the crate's remaining variants. -/
inductive Yaml where
  | Real (s : Str)
  | Integer (n : Int)
  | String (s : Str)
  | Boolean (b : Bool)
  | Array (xs : List Yaml)
  | Hash (es : List (Yaml × Yaml))
  | Alias (n : Nat)
  | Null
  | BadValue
deriving Repr

/-- One decimal digit character. -/
def digitChar (n : Nat) : Char := Char.ofNat (48 + n)

/-- Decimal rendering of a natural number, with a structurally decreasing
fuel argument (always sufficient, since a number has at most `n + 1`
digits). -/
def natToStrAux : Nat → Nat → Str
  | 0, _ => []
  | fuel + 1, n =>
    if n < 10 then [digitChar n]
    else natToStrAux fuel (n / 10) ++ [digitChar (n % 10)]

/-- Model of Rust `u64`-style decimal rendering (digits of `to_string`). -/
def natToStr (n : Nat) : Str := natToStrAux (n + 1) n

/-- Model of Rust `i64::to_string`. -/
def intToStr (n : Int) : Str :=
  if n < 0 then '-' :: natToStr n.natAbs else natToStr n.toNat

/-- Model of Rust `bool::to_string`. -/
def boolToStr (b : Bool) : Str := if b then strL "true" else strL "false"

/-- Models the `derive(Debug)` rendering of yaml_rust2 values, used only in
`yaml_to_string`'s catch-all arm. The rendering is external library behavior;
it is modelled superficially (variant name only) and no theorem relies on its
text. -/
def yamlDebug : Yaml → Str
  | .Real _ => strL "Real(..)"
  | .Integer _ => strL "Integer(..)"
  | .String _ => strL "String(..)"
  | .Boolean _ => strL "Boolean(..)"
  | .Array _ => strL "Array(..)"
  | .Hash _ => strL "Hash(..)"
  | .Alias _ => strL "Alias(..)"
  | .Null => strL "Null"
  | .BadValue => strL "BadValue"

/-- src/yaml_compat.rs `yaml_as_str`: string value of a `Yaml::String`, else
`None`. -/
def yamlAsStr : Yaml → Option Str
  | .String s => some s
  | _ => none

mutual

/-- src/yaml_compat.rs `yaml_contains_str`: substring containment in the
string rendering of a scalar; any-element containment for arrays; `false`
for everything else. -/
def yamlContainsStr : Yaml → Str → Bool
  | .String s, search => containsSub s search
  | .Array arr, search => yamlListContainsStr arr search
  | .Integer n, search => containsSub (intToStr n) search
  | .Real f, search => containsSub f search
  | .Boolean b, search => containsSub (boolToStr b) search
  | _, _ => false

/-- The `arr.iter().any(..)` loop inside `yaml_contains_str`. -/
def yamlListContainsStr : List Yaml → Str → Bool
  | [], _ => false
  | y :: ys, search => yamlContainsStr y search || yamlListContainsStr ys search

end

mutual

/-- src/yaml_compat.rs `yaml_contains_str_case_insensitive`. -/
def yamlContainsStrCI : Yaml → Str → Bool
  | .String s, search => containsSub (strToLower s) (strToLower search)
  | .Array arr, search => yamlListContainsStrCI arr search
  | .Integer n, search => containsSub (strToLower (intToStr n)) (strToLower search)
  | .Real f, search => containsSub (strToLower f) (strToLower search)
  | .Boolean b, search => containsSub (strToLower (boolToStr b)) (strToLower search)
  | _, _ => false

/-- The `arr.iter().any(..)` loop inside the case-insensitive variant. -/
def yamlListContainsStrCI : List Yaml → Str → Bool
  | [], _ => false
  | y :: ys, search => yamlContainsStrCI y search || yamlListContainsStrCI ys search

end

/-- src/yaml_compat.rs `yaml_to_string`: scalar renderings, `"null"` for
`Null`, and the debug rendering for every other variant. -/
def yamlToString : Yaml → Str
  | .String s => s
  | .Integer n => intToStr n
  | .Real f => f
  | .Boolean b => boolToStr b
  | .Null => strL "null"
  | y => yamlDebug y

/-! ## Association-list model of the string-keyed maps -/

/-- First-match lookup in an association list (`HashMap::get`). -/
def alGet {V : Type} (m : List (Str × V)) (k : Str) : Option V :=
  match m with
  | [] => none
  | (k2, v) :: rest => if k2 = k then some v else alGet rest k

/-- Replace the first binding of `k` (or append one): `HashMap::insert` /
mutation through `entry`. -/
def alSet {V : Type} (m : List (Str × V)) (k : Str) (v : V) : List (Str × V) :=
  match m with
  | [] => [(k, v)]
  | (k2, v2) :: rest => if k2 = k then (k2, v) :: rest else (k2, v2) :: alSet rest k v

/-- A parsed frontmatter mapping (`HashMap<String, Yaml>`), modelled as an
association list whose insertion API keeps keys distinct. -/
abbrev Frontmatter := List (Str × Yaml)

/-! ## src/frontmatter.rs: repair pass, extraction, document model -/

/-- Tests whether a string starts with one given character (Rust
`str::starts_with('c')`). -/
def startsWithChar (s : Str) (c : Char) : Bool := s.head? == some c

/-- The per-line body of src/frontmatter.rs `fix_yaml_issues`: comments and
blank lines pass through; a key/value line whose value part is a plain scalar
containing a further `':'` is re-emitted with the value double-quoted and the
leading indentation replaced by that many spaces; everything else passes
through unchanged. -/
def fixLine (line : Str) : Str :=
  let trimmed := trim line
  if trimmed = [] || startsWithChar trimmed '#' then line
  else
    match findCharIdx ':' trimmed with
    | none => line
    | some colonPos =>
      let keyPart := trimmed.take colonPos
      let valuePart := trimStart (trimmed.drop (colonPos + 1))
      if startsWithChar valuePart '[' || startsWithChar valuePart '{' ||
          startsWithChar valuePart '"' || startsWithChar valuePart '\'' ||
          valuePart = [] then line
      else if containsSub valuePart (strL ":") && !startsWithChar valuePart '"' &&
          !startsWithChar valuePart '\'' then
        let leadingSpaces := line.length - (trimStart line).length
        spacesRep leadingSpaces ++ keyPart ++ ':' :: ' ' :: '"' :: (valuePart ++ ['"'])
      else line

/-- src/frontmatter.rs `fix_yaml_issues`: the line-level repair heuristic,
applied to every line and re-joined with line feeds. -/
def fixYamlIssues (content : Str) : Str :=
  joinLines ((rustLines content).map fixLine)

/-- Numeric value of a digit string (used by the plain-scalar typing of the
modelled strict parser). -/
def strDigitsToNat (s : Str) : Nat := s.foldl (fun acc c => acc * 10 + (c.toNat - 48)) 0

/-- Modelled from the spec: plain-scalar typing of the strict structured-text
parser (the yaml_rust2 YamlLoader dependency, which is not part of src/).
Digits parse as integers, `true`/`false` as booleans, `null`/`~` as null, any
other plain text as a string, matching the spec's structured-value model. -/
def parsePlainScalar (s : Str) : Yaml :=
  if s = strL "null" || s = strL "~" then .Null
  else if s = strL "true" then .Boolean true
  else if s = strL "false" then .Boolean false
  else if s ≠ [] && s.all (fun c => '0' ≤ c && c ≤ '9') then .Integer (strDigitsToNat s)
  else .String s

/-- Modelled from the spec: quoted-scalar parsing of the strict parser
(yaml_rust2, not part of src/). A quoted value must close with the same quote
and, in this best-effort model, contain no inner quote — matching the spec's
note that repaired values embed the text verbatim with inner quotes not
escaped, which the strict parser then rejects. -/
def parseQuoted (q : Char) (rest : Str) : Except Str Yaml :=
  match rest with
  | [] => .error (strL "empty quoted scalar")
  | _ :: body =>
    if body.getLast? == some q && !(body.dropLast.contains q) && body ≠ [] then
      .ok (.String body.dropLast)
    else .error (strL "malformed quoted scalar")

/-- Modelled from the spec: flow-sequence parsing of the strict parser
(yaml_rust2, not part of src/), restricted to sequences of plain scalars as
in the spec's concrete scenarios. -/
def parseFlowSeq (rest : Str) : Except Str Yaml :=
  match rest with
  | [] => .error (strL "empty flow sequence")
  | _ :: mid =>
    if mid.getLast? == some ']' then
      let interior := mid.dropLast
      if trim interior = [] then .ok (.Array [])
      else if interior.any (fun c => c == ':' || c == '"' || c == '\'' || c == '[' || c == '{') then
        .error (strL "flow sequence beyond the model")
      else .ok (.Array ((splitChar ',' interior).map (fun e => parsePlainScalar (trim e))))
    else .error (strL "unclosed flow sequence")

/-- Modelled from the spec: value parsing of the strict parser (yaml_rust2,
not part of src/). Per spec section 4.1 step 6 and the glossary, an unquoted
plain scalar containing a further separator character is rejected — the
strict parser reads the embedded separator as a second key boundary — while
quoted, bracketed and empty values are structurally valid. -/
def parseValue (rest : Str) : Except Str Yaml :=
  if rest = [] then .ok .Null
  else if startsWithChar rest '"' then parseQuoted '"' rest
  else if startsWithChar rest '\'' then parseQuoted '\'' rest
  else if startsWithChar rest '[' then parseFlowSeq rest
  else if startsWithChar rest '{' then .error (strL "flow mapping beyond the model")
  else if containsSub rest (strL ":") then
    .error (strL "mapping values are not allowed in this context")
  else .ok (parsePlainScalar rest)

/-- Modelled from the spec: one line of the strict parser (yaml_rust2, not
part of src/): blank and comment lines carry no entry; any other line is a
`key: value` pair split at the first separator. The key is typed by the same
plain-scalar rules as values, so keys such as `5` or `true` come out
non-string and are dropped downstream per the spec's mapping invariant. -/
def parseYamlLine (line : Str) : Except Str (Option (Yaml × Yaml)) :=
  let t := trim line
  if t = [] then .ok none
  else if startsWithChar t '#' then .ok none
  else
    match findCharIdx ':' t with
    | none => .error (strL "could not find expected key separator")
    | some i => (parseValue (trimStart (t.drop (i + 1)))).map
        (fun v => some (parsePlainScalar (trimEnd (t.take i)), v))

/-- One line of the fold in `parseYamlFrontmatter`: a string-keyed entry is
inserted, and any entry whose key is not a string is silently dropped, as
src/yaml_compat.rs `yaml_to_string_map` does. -/
def pyStep (m : Frontmatter) (line : Str) : Except Str Frontmatter :=
  (parseYamlLine line).map (fun res =>
    match res with
    | none => m
    | some (Yaml.String k, v) => alSet m k v
    | some _ => m)

/-- Modelled from the spec: src/yaml_compat.rs `parse_yaml_frontmatter` with
the yaml_rust2 YamlLoader (a dependency, not part of src/) replaced by the
line-level strict parser above; string-keyed entries are collected into the
mapping (non-string keys silently dropped), later duplicates replacing
earlier ones as `HashMap::insert` does. -/
def parseYamlFrontmatter (content : Str) : Except Str Frontmatter :=
  (rustLines content).foldlM pyStep []

/-- src/frontmatter.rs `try_lenient_parse`: repair, then re-parse. -/
def tryLenientParse (frontmatterContent : Str) : Except Str Frontmatter :=
  parseYamlFrontmatter (fixYamlIssues frontmatterContent)

/-- The delimiter-scanning loop of `extract_frontmatter_with_options`:
index of the first line at position 1 or later whose trimmed content is the
delimiter. -/
def findDelimFrom (i : Nat) : List Str → Option Nat
  | [] => none
  | l :: ls => if trim l = strL "---" then some i else findDelimFrom (i + 1) ls

/-- src/frontmatter.rs `extract_frontmatter_with_options`. Every path of the
Rust function returns `Ok`, so the embedding returns the pair directly. -/
def extractFrontmatterWithOptions (content : Str) (filePath : Str) (_verbose : Bool)
    (lenient : Bool) : Option Frontmatter × Option Str :=
  let content := trim content
  if !(startsWithStr content (strL "---")) then (none, none)
  else
    let lines := rustLines content
    if lines.length < 3 then (none, none)
    else
      match findDelimFrom 1 (lines.drop 1) with
      | none => (none, none)
      | some endIndex =>
        let fmLines := (lines.drop 1).take (endIndex - 1)
        let fmContent := joinLines fmLines
        if trim fmContent = [] then (some [], none)
        else
          match parseYamlFrontmatter fmContent with
          | .ok parsed => (some parsed, none)
          | .error e =>
            if lenient then
              match tryLenientParse fmContent with
              | .ok parsed =>
                (some parsed,
                  some (strL "Used lenient parsing for frontmatter in file " ++ filePath ++
                    strL " due to: " ++ e))
              | .error _ =>
                (some [],
                  some (strL "Failed to parse frontmatter in file " ++ filePath ++
                    strL " even with lenient parsing: " ++ e))
            else
              (some [],
                some (strL "Failed to parse frontmatter in file " ++ filePath ++
                  strL ": " ++ e))

/-- Model of Rust `Path::file_name`: the final non-`.` component of a
`/`-separated path, unless it is `..` or there is none. -/
def rustFileName (p : Str) : Option Str :=
  let comps := (splitChar '/' p).filter (fun c => c ≠ [] && c ≠ strL ".")
  match comps.getLast? with
  | none => none
  | some last => if last = strL ".." then none else some last

/-- Index of the last occurrence of `'.'` in a file name. -/
def lastDotIdx (name : Str) : Option Nat :=
  match findCharIdx '.' name.reverse with
  | none => none
  | some j => some (name.length - 1 - j)

/-- Model of Rust `Path::file_stem`: the file name up to its last `.`,
except that a leading `.` with no later dot keeps the whole name. -/
def rustFileStem (p : Str) : Option Str :=
  (rustFileName p).map (fun name =>
    match lastDotIdx name with
    | none => name
    | some 0 => name
    | some i => name.take i)

/-- src/frontmatter.rs `Note`. -/
structure Note where
  path : Str
  frontmatter : Frontmatter
  title : Option Str

/-- src/frontmatter.rs `Note::new`: the derived title is the string-valued
`title` entry when present, else the filename stem of the path. -/
def Note.new (path : Str) (frontmatter : Frontmatter) : Note :=
  let title :=
    match (alGet frontmatter (strL "title")).bind yamlAsStr with
    | some s => some s
    | none => rustFileStem path
  ⟨path, frontmatter, title⟩

/-- src/frontmatter.rs `Note::get_frontmatter_value`. -/
def Note.getFrontmatterValue (n : Note) (key : Str) : Option Yaml :=
  alGet n.frontmatter key

/-- src/frontmatter.rs `Note::matches_filter`. -/
def Note.matchesFilter (n : Note) (key value : Str) : Bool :=
  match n.getFrontmatterValue key with
  | some fmValue => yamlContainsStr fmValue value
  | none => false

/-- src/frontmatter.rs `Note::matches_filter_with_case_sensitivity`. In the
case-insensitive branch the key is resolved by lower-cased comparison over
the mapping's entries. -/
def Note.matchesFilterWithCaseSensitivity (n : Note) (key value : Str)
    (caseSensitive : Bool) : Bool :=
  if caseSensitive then n.matchesFilter key value
  else
    match n.frontmatter.find? (fun kv => strToLower kv.1 = strToLower key) with
    | some kv => yamlContainsStrCI kv.2 value
    | none => false

/-- src/frontmatter.rs `ParseResult`. -/
structure ParseResult where
  note : Option Note
  frontmatterWarning : Option Str

/-- src/frontmatter.rs `parse_frontmatter_from_file`, with the file-system
read represented by its result: the raw text, or a read error. -/
def parseFrontmatterFromFile (readResult : Except Str Str) (path : Str)
    (verbose lenient : Bool) : Except Str ParseResult :=
  match readResult with
  | .error _ => .error (strL "Failed to read file: " ++ path)
  | .ok content =>
    let (frontmatterOpt, warning) := extractFrontmatterWithOptions content path verbose lenient
    let note :=
      match frontmatterOpt with
      | some fm => some (Note.new path fm)
      | none => some (Note.new path [])
    .ok { note := note, frontmatterWarning := warning }

/-! ## src/filter.rs: query predicate and field statistics -/

/-- src/filter.rs `FilterCriteria`. -/
structure FilterCriteria where
  filters : List (Str × Str)
  caseSensitive : Bool

/-- src/filter.rs `FilterCriteria::matches_all_filters`. -/
def FilterCriteria.matchesAllFilters (c : FilterCriteria) (note : Note) : Bool :=
  c.filters.all (fun kv => note.matchesFilterWithCaseSensitivity kv.1 kv.2 c.caseSensitive)

/-- src/filter.rs `FilterCriteria::apply_filters`: the whole input when the
constraint list is empty, otherwise the notes matching every constraint. -/
def FilterCriteria.applyFilters (c : FilterCriteria) (notes : List Note) : List Note :=
  if c.filters.isEmpty then notes
  else notes.filter (fun note => c.matchesAllFilters note)

/-- src/filter.rs `FieldStats`, with the `HashSet` of distinct values and the
count map modelled as insertion-ordered lists. -/
structure FieldStats where
  total_count : Nat
  unique_values : List Str
  value_counts : List (Str × Nat)
deriving Repr

/-- src/filter.rs `FieldStats::new`. -/
def FieldStats.new : FieldStats := ⟨0, [], []⟩

/-- `HashSet::insert` on the distinct-value list. -/
def setInsert (l : List Str) (s : Str) : List Str :=
  if s ∈ l then l else l ++ [s]

/-- The `*self.value_counts.entry(s).or_insert(0) += 1` idiom. -/
def countsBump (m : List (Str × Nat)) (s : Str) : List (Str × Nat) :=
  match alGet m s with
  | some n => alSet m s (n + 1)
  | none => m ++ [(s, 1)]

/-- Records one rendered value in the distinct set and the per-value counts. -/
def FieldStats.addValue (st : FieldStats) (s : Str) : FieldStats :=
  { st with
    unique_values := setInsert st.unique_values s
    value_counts := countsBump st.value_counts s }

/-- The per-element body of the array fold in `FieldStats::increment`: only
a `Yaml::String` item records its value; any other item leaves the
statistics untouched. -/
def FieldStats.incrementElem (acc : FieldStats) (item : Yaml) : FieldStats :=
  match item with
  | Yaml.String s => acc.addValue s
  | _ => acc

/-- src/filter.rs `FieldStats::increment`: the total count always grows by
one; a string, numeric or boolean value records its rendering; an array
records only its `Yaml::String` elements; every other variant records its
generic `yaml_to_string` rendering. -/
def FieldStats.increment (st : FieldStats) (value : Yaml) : FieldStats :=
  let st := { st with total_count := st.total_count + 1 }
  match value with
  | .String s => st.addValue s
  | .Array arr => arr.foldl FieldStats.incrementElem st
  | .Integer n => st.addValue (intToStr n)
  | .Real f => st.addValue f
  | .Boolean b => st.addValue (boolToStr b)
  | v => st.addValue (yamlToString v)

/-- The `stats.entry(key).or_insert_with(FieldStats::new)` update of
`get_field_statistics`. -/
def statsUpdate (m : List (Str × FieldStats)) (key : Str) (value : Yaml) :
    List (Str × FieldStats) :=
  match alGet m key with
  | some st => alSet m key (st.increment value)
  | none => m ++ [(key, FieldStats.new.increment value)]

/-- One frontmatter entry of the inner loop of `get_field_statistics`. -/
def statsAddEntry (m : List (Str × FieldStats)) (kv : Str × Yaml) :
    List (Str × FieldStats) :=
  statsUpdate m kv.1 kv.2

/-- One note of the outer loop of `get_field_statistics`. -/
def statsAddNote (m : List (Str × FieldStats)) (note : Note) :
    List (Str × FieldStats) :=
  note.frontmatter.foldl statsAddEntry m

/-- src/filter.rs `get_field_statistics`: one pass over every note's
frontmatter entries. -/
def getFieldStatistics (notes : List Note) : List (Str × FieldStats) :=
  notes.foldl statsAddNote []

/-! ## src/logger.rs: diagnostics aggregator -/

/-- src/logger.rs `ErrorLevel`. -/
inductive ErrorLevel where
  | Critical
  | Warning
  | Info
deriving Repr, DecidableEq

/-- src/logger.rs `LogEntry`. -/
structure LogEntry where
  level : ErrorLevel
  message : Str
  filePath : Option Str
deriving Repr, DecidableEq

/-- src/logger.rs `Logger` (printing is I/O and carries no state; the
retained state is the entry list, the per-category tallies and the lenient
counter). -/
structure Logger where
  verbose : Bool
  entries : List LogEntry
  errorCounts : List (Str × Nat)
  lenientParsingCount : Nat

/-- src/logger.rs `Logger::new`. -/
def Logger.new (verbose : Bool) : Logger := ⟨verbose, [], [], 0⟩

/-- src/logger.rs `extract_warning_type`: substring classification of a
warning message into the four summary categories. -/
def extractWarningType (message : Str) : Str :=
  if containsSub message (strL "frontmatter") then strL "Frontmatter parsing errors"
  else if containsSub message (strL "Failed to parse") then strL "File parsing errors"
  else if containsSub message (strL "Failed to read") then strL "File read errors"
  else strL "Other errors"

/-- src/logger.rs `Logger::log_warning`: a message containing
`"Used lenient parsing"` bumps the lenient counter, any other message bumps
its category tally; the entry is always appended, whatever the verbosity. -/
def Logger.logWarning (lg : Logger) (message : Str) (filePath : Option Str) : Logger :=
  let entry : LogEntry := ⟨ErrorLevel.Warning, message, filePath⟩
  let lg :=
    if containsSub message (strL "Used lenient parsing") then
      { lg with lenientParsingCount := lg.lenientParsingCount + 1 }
    else
      { lg with errorCounts := countsBump lg.errorCounts (extractWarningType message) }
  { lg with entries := lg.entries ++ [entry] }

/-! ## General lemmas about the string model -/

theorem startsWithStr_append_self (sub rest : Str) :
    startsWithStr (sub ++ rest) sub = true := by
  induction sub with
  | nil => cases rest <;> rfl
  | cons c cs ih => simpa [startsWithStr] using ih

theorem containsSub_of_startsWithStr {s sub : Str} (h : startsWithStr s sub = true) :
    containsSub s sub = true := by
  cases s <;> simp [containsSub, h]

theorem containsSub_append_left (lft : Str) {r sub : Str}
    (h : containsSub r sub = true) : containsSub (lft ++ r) sub = true := by
  induction lft with
  | nil => simpa using h
  | cons c cs ih =>
    rw [List.cons_append]
    cases h2 : startsWithStr (c :: (cs ++ r)) sub <;> simp [containsSub, h2, ih]

theorem containsSub_nil (s : Str) : containsSub s [] = true := by
  cases s <;> simp [containsSub, startsWithStr]

/-! ## Claim C9: empty predicate -/

/-- src/filter.rs `FilterCriteria::new`. -/
def FilterCriteria.new (filters : List (Str × Str)) : FilterCriteria := ⟨filters, true⟩

/-- src/filter.rs `FilterCriteria::new_case_insensitive`. -/
def FilterCriteria.newCaseInsensitive (filters : List (Str × Str)) : FilterCriteria :=
  ⟨filters, false⟩

/-- C9: applying a predicate whose constraint list is empty returns every
document of the input, unchanged and in the input's relative order. -/
theorem c9_empty_filter_returns_all (c : FilterCriteria) (notes : List Note)
    (h : c.filters = []) : c.applyFilters notes = notes := by
  simp [FilterCriteria.applyFilters, h]

/-- Witness for C9 at a concrete one-note list and an empty criteria list. -/
theorem c9_empty_filter_returns_all_witness :
    (FilterCriteria.new []).filters = [] ∧
      (FilterCriteria.new []).applyFilters [Note.new (strL "note1.md") []] =
        [Note.new (strL "note1.md") []] :=
  ⟨rfl, c9_empty_filter_returns_all (FilterCriteria.new []) [Note.new (strL "note1.md") []] rfl⟩

/-! ## Claim C7: title derivation -/

/-- The title derivation as the spec words it: the metadata's `title` value
when that key is present and string-valued, otherwise the filename stem of
the path, otherwise absent. -/
def titleSpec (frontmatter : Frontmatter) (path : Str) : Option Str :=
  match alGet frontmatter (strL "title") with
  | some (Yaml.String s) => some s
  | _ => rustFileStem path

/-- C7: for every constructed document, the derived title is the
string-valued `title` metadata entry when present, else the filename stem of
the path, else absent. -/
theorem c7_title_derivation (path : Str) (fm : Frontmatter) :
    (Note.new path fm).title = titleSpec fm path := by
  unfold Note.new titleSpec
  cases h : alGet fm (strL "title") with
  | none => simp [h]
  | some v => cases v <;> simp [h, yamlAsStr]

/-! ## Claim C4: text without the opening delimiter -/

/-- C4: when the trimmed text does not begin with the delimiter, extraction
returns no metadata mapping and no diagnostic warning. -/
theorem c4_no_delimiter_no_metadata (content path : Str) (vb lenient : Bool)
    (h : startsWithStr (trim content) (strL "---") = false) :
    extractFrontmatterWithOptions content path vb lenient = (none, none) := by
  simp [extractFrontmatterWithOptions, h]

/-- Witness for C4 at a plain markdown text with no frontmatter block. -/
theorem c4_no_delimiter_no_metadata_witness :
    startsWithStr (trim (strL "# Just a regular markdown file")) (strL "---") = false ∧
      extractFrontmatterWithOptions (strL "# Just a regular markdown file")
        (strL "test.md") false true = (none, none) :=
  ⟨by decide,
    c4_no_delimiter_no_metadata (strL "# Just a regular markdown file")
      (strL "test.md") false true (by decide)⟩

/-! ## Claim C6: a document is always produced on a successful read -/

/-- C6: a successful read always yields a parse result with a document (even
if metadata parsing failed, in which case the metadata is empty), while a
read failure is the only way the per-document parse returns an error. -/
theorem c6_note_always_produced (content e path : Str) (vb lenient : Bool) :
    (∃ note warning,
      parseFrontmatterFromFile (.ok content) path vb lenient = .ok ⟨some note, warning⟩) ∧
    parseFrontmatterFromFile (.error e) path vb lenient =
      .error (strL "Failed to read file: " ++ path) := by
  constructor
  · rcases h : extractFrontmatterWithOptions content path vb lenient with ⟨fmOpt, w⟩
    cases fmOpt with
    | none => exact ⟨Note.new path [], w, by simp [parseFrontmatterFromFile, h]⟩
    | some fm => exact ⟨Note.new path fm, w, by simp [parseFrontmatterFromFile, h]⟩
  · rfl

/-! ## Claim C10: matching against the empty substring -/

mutual

/-- The claim's notion of a scalar leaf, as the spec words it: a string,
integer, real or boolean, possibly nested inside sequences; mappings and
null have none. -/
def hasScalarLeafSpec : Yaml → Bool
  | .String _ => true
  | .Integer _ => true
  | .Real _ => true
  | .Boolean _ => true
  | .Array xs => listHasScalarLeafSpec xs
  | _ => false

/-- Scalar-leaf search within a sequence. -/
def listHasScalarLeafSpec : List Yaml → Bool
  | [] => false
  | y :: ys => hasScalarLeafSpec y || listHasScalarLeafSpec ys

end

mutual

theorem yamlContainsStr_nil (y : Yaml) :
    yamlContainsStr y [] = hasScalarLeafSpec y := by
  cases y <;> simp [yamlContainsStr, hasScalarLeafSpec, containsSub_nil]
  case Array xs => exact yamlListContainsStr_nil xs

theorem yamlListContainsStr_nil (xs : List Yaml) :
    yamlListContainsStr xs [] = listHasScalarLeafSpec xs := by
  cases xs with
  | nil => simp [yamlListContainsStr, listHasScalarLeafSpec]
  | cons y ys =>
    simp [yamlListContainsStr, listHasScalarLeafSpec,
      yamlContainsStr_nil y, yamlListContainsStr_nil ys]

end

/-- C10: matching a key against the empty substring succeeds exactly when the
document has a value at that key whose structure contains at least one scalar
leaf; mappings, null, and sequences without scalar leaves never match. -/
theorem c10_empty_substring_scalar_leaf (n : Note) (key : Str) :
    n.matchesFilter key (strL "") = true ↔
      ∃ v, n.getFrontmatterValue key = some v ∧ hasScalarLeafSpec v = true := by
  unfold Note.matchesFilter
  cases h : n.getFrontmatterValue key with
  | none => simp [h]
  | some v => simp [h, show strL "" = ([] : Str) from rfl, yamlContainsStr_nil]

/-! ## Lemmas about the association-list maps -/

theorem alGet_alSet {V : Type} (m : List (Str × V)) (k : Str) (v : V) (k2 : Str) :
    alGet (alSet m k v) k2 = if k2 = k then some v else alGet m k2 := by
  induction m with
  | nil =>
    simp only [alSet, alGet]
    by_cases h : k2 = k
    · simp [h]
    · rw [if_neg (fun he : k = k2 => h he.symm), if_neg h]
  | cons kv rest ih =>
    obtain ⟨k1, v1⟩ := kv
    simp only [alSet]
    by_cases h1 : k1 = k
    · simp only [if_pos h1, alGet]
      by_cases h2 : k1 = k2
      · have hk : k2 = k := h2.symm.trans h1
        simp [if_pos h2, if_pos hk]
      · have hk : ¬ (k2 = k) := fun he => h2 (h1.trans he.symm)
        simp [if_neg h2, if_neg hk, alGet, if_neg (fun he : k1 = k2 => h2 he)]
    · simp only [if_neg h1, alGet]
      by_cases h2 : k1 = k2
      · have hk : ¬ (k2 = k) := fun he => h1 (h2.trans he)
        simp [if_pos h2, if_neg hk]
      · simp [if_neg h2, ih]

theorem alGet_append {V : Type} (m1 m2 : List (Str × V)) (k : Str) :
    alGet (m1 ++ m2) k =
      match alGet m1 k with
      | some v => some v
      | none => alGet m2 k := by
  induction m1 with
  | nil => simp [alGet]
  | cons kv rest ih =>
    obtain ⟨k1, v1⟩ := kv
    simp only [List.cons_append, alGet]
    split_ifs with h1 <;> simp [ih]

/-- Looks a per-value tally up, defaulting to zero (absence and a zero tally
are indistinguishable to the summary). -/
def countOf (m : List (Str × Nat)) (k : Str) : Nat := (alGet m k).getD 0

theorem countOf_countsBump (m : List (Str × Nat)) (s k : Str) :
    countOf (countsBump m s) k = countOf m k + (if k = s then 1 else 0) := by
  unfold countsBump
  cases h : alGet m s with
  | some n =>
    simp only [countOf, alGet_alSet]
    by_cases hk : k = s
    · subst hk
      simp [h]
    · simp [hk]
  | none =>
    simp only [countOf, alGet_append]
    by_cases hk : k = s
    · subst hk
      simp [h, alGet]
    · have hsk : ¬ (s = k) := fun he => hk he.symm
      cases h2 : alGet m k with
      | some w => simp [h2, hk]
      | none => simp [h2, alGet, hk, if_neg hsk]

theorem mem_setInsert (l : List Str) (s v : Str) :
    v ∈ setInsert l s ↔ v ∈ l ∨ v = s := by
  unfold setInsert
  split_ifs with h <;> simp_all

/-! ## Claim C2: non-string sequence elements -/

/-- The distinct-value set recorded for a key by the statistics pass. -/
def uniqueValuesOf (stats : List (Str × FieldStats)) (key : Str) : List Str :=
  match alGet stats key with
  | some st => st.unique_values
  | none => []

/-- The concrete input refuting C2: one document whose `nums` entry is a
sequence holding a single non-string element. -/
def c2CounterNote : Note :=
  Note.new (strL "note1.md") [(strL "nums", Yaml.Array [Yaml.Integer 5])]

/-- Counterexample to C2 as stated: the sequence element `5` is not
string-coercible, and its generic rendering does not appear in the
distinct-value set — the element is dropped, not rendered. -/
theorem c2_counterexample :
    ¬ (yamlToString (Yaml.Integer 5) ∈
        uniqueValuesOf (getFieldStatistics [c2CounterNote]) (strL "nums")) := by
  decide

theorem addValue_total (st : FieldStats) (s : Str) :
    (st.addValue s).total_count = st.total_count := rfl

/-- The array arm of `FieldStats::increment`, unfolded. -/
theorem increment_array_eq (st : FieldStats) (arr : List Yaml) :
    FieldStats.increment st (Yaml.Array arr) =
      arr.foldl FieldStats.incrementElem { st with total_count := st.total_count + 1 } := rfl

theorem foldl_strings_unique (arr : List Yaml) (st : FieldStats) (v : Str) :
    v ∈ (arr.foldl FieldStats.incrementElem st).unique_values ↔
      v ∈ st.unique_values ∨ Yaml.String v ∈ arr := by
  induction arr generalizing st with
  | nil => simp
  | cons y ys ih =>
    rw [List.foldl_cons, ih]
    cases y <;>
      simp [FieldStats.incrementElem, FieldStats.addValue, mem_setInsert] <;>
      tauto

theorem foldl_strings_counts (arr : List Yaml) (st : FieldStats) (v : Str) :
    countOf (arr.foldl FieldStats.incrementElem st).value_counts v =
      countOf st.value_counts v +
        (arr.filter (fun item =>
          match item with
          | Yaml.String s => s == v
          | _ => false)).length := by
  induction arr generalizing st with
  | nil => simp
  | cons y ys ih =>
    rw [List.foldl_cons, ih, List.filter_cons]
    cases y with
    | String s =>
      simp only [FieldStats.incrementElem, FieldStats.addValue, countOf_countsBump]
      by_cases h : s = v
      · subst h
        simp [Nat.add_comm, Nat.add_assoc, Nat.add_left_comm]
      · have hv : ¬ (v = s) := fun he => h he.symm
        simp [h, hv]
    | Real s => simp [FieldStats.incrementElem]
    | Integer n => simp [FieldStats.incrementElem]
    | Boolean b => simp [FieldStats.incrementElem]
    | Array xs => simp [FieldStats.incrementElem]
    | Hash es => simp [FieldStats.incrementElem]
    | Alias n => simp [FieldStats.incrementElem]
    | Null => simp [FieldStats.incrementElem]
    | BadValue => simp [FieldStats.incrementElem]

/-- C2 as amended: for a sequence-valued entry, `increment` records exactly
the `String` elements in the distinct-value set and the per-value counts —
elements that are not strings are dropped, not rendered through the generic
fallback (which applies only to non-scalar, non-sequence values). -/
theorem c2_amended_array_elements (st : FieldStats) (arr : List Yaml) (v : Str) :
    (v ∈ (st.increment (Yaml.Array arr)).unique_values ↔
      v ∈ st.unique_values ∨ Yaml.String v ∈ arr) ∧
    countOf (st.increment (Yaml.Array arr)).value_counts v =
      countOf st.value_counts v +
        (arr.filter (fun item =>
          match item with
          | Yaml.String s => s == v
          | _ => false)).length := by
  rw [increment_array_eq]
  exact ⟨foldl_strings_unique arr _ v, foldl_strings_counts arr _ v⟩

/-! ## Claim C1: the total occurrence count -/

/-- The total occurrence count recorded for a key by the statistics pass
(zero when the key never occurs). -/
def totalCountOf (stats : List (Str × FieldStats)) (key : Str) : Nat :=
  match alGet stats key with
  | some st => st.total_count
  | none => 0

theorem foldl_incrementElem_total (arr : List Yaml) (st : FieldStats) :
    (arr.foldl FieldStats.incrementElem st).total_count = st.total_count := by
  induction arr generalizing st with
  | nil => rfl
  | cons y ys ih =>
    rw [List.foldl_cons, ih]
    cases y <;> rfl

theorem increment_total (st : FieldStats) (v : Yaml) :
    (st.increment v).total_count = st.total_count + 1 := by
  cases v <;>
    simp [FieldStats.increment, addValue_total, foldl_incrementElem_total]

theorem totalCountOf_statsUpdate (m : List (Str × FieldStats)) (key : Str)
    (value : Yaml) (k2 : Str) :
    totalCountOf (statsUpdate m key value) k2 =
      totalCountOf m k2 + (if k2 = key then 1 else 0) := by
  unfold statsUpdate
  cases h : alGet m key with
  | some st =>
    simp only [totalCountOf, alGet_alSet]
    by_cases hk : k2 = key
    · subst hk
      simp [h, increment_total]
    · simp [hk]
  | none =>
    simp only [totalCountOf, alGet_append]
    by_cases hk : k2 = key
    · subst hk
      simp [h, alGet, increment_total, FieldStats.new]
    · have hkk : ¬ (key = k2) := fun he => hk he.symm
      cases h2 : alGet m k2 with
      | some st => simp [h2, hk]
      | none => simp [h2, alGet, hk, if_neg hkk]

theorem totalCountOf_statsAddEntries (fm : Frontmatter)
    (m : List (Str × FieldStats)) (key : Str) :
    totalCountOf (fm.foldl statsAddEntry m) key =
      totalCountOf m key + (fm.filter (fun kv => kv.1 == key)).length := by
  induction fm generalizing m with
  | nil => simp
  | cons kv rest ih =>
    rw [List.foldl_cons, ih, List.filter_cons, statsAddEntry,
      totalCountOf_statsUpdate]
    by_cases hk : kv.1 = key
    · simp [hk, Nat.add_comm, Nat.add_assoc, Nat.add_left_comm]
    · have hkk : ¬ (key = kv.1) := fun he => hk he.symm
      simp [hk, hkk]

theorem totalCountOf_statsAddNotes (notes : List Note)
    (m : List (Str × FieldStats)) (key : Str) :
    totalCountOf (notes.foldl statsAddNote m) key =
      totalCountOf m key +
        (notes.map
          (fun n => (n.frontmatter.filter (fun kv => kv.1 == key)).length)).sum := by
  induction notes generalizing m with
  | nil => simp
  | cons n ns ih =>
    rw [List.foldl_cons, ih, statsAddNote, totalCountOf_statsAddEntries,
      List.map_cons, List.sum_cons]
    omega

theorem filter_key_length_of_nodup (fm : Frontmatter) (key : Str)
    (h : (fm.map Prod.fst).Nodup) :
    (fm.filter (fun kv => kv.1 == key)).length =
      if (alGet fm key).isSome then 1 else 0 := by
  induction fm with
  | nil => simp [alGet]
  | cons kv rest ih =>
    obtain ⟨k1, v1⟩ := kv
    simp only [List.map_cons, List.nodup_cons] at h
    obtain ⟨hnot, hrest⟩ := h
    rw [List.filter_cons]
    by_cases hk : k1 = key
    · subst hk
      have hz : (rest.filter (fun kv => kv.1 == k1)).length = 0 := by
        rw [List.length_eq_zero, List.filter_eq_nil]
        intro a ha hb
        exact hnot (by
          have : a.1 = k1 := by simpa using hb
          exact this ▸ List.mem_map_of_mem Prod.fst ha)
      simp [alGet, hz]
    · have hkk : ¬ (k1 = key) := hk
      simp [hkk, alGet, ih hrest]

theorem sum_counts_eq_filter_length (notes : List Note) (key : Str)
    (h : ∀ n ∈ notes, (n.frontmatter.map Prod.fst).Nodup) :
    (notes.map
      (fun n => (n.frontmatter.filter (fun kv => kv.1 == key)).length)).sum =
      (notes.filter (fun n => (alGet n.frontmatter key).isSome)).length := by
  induction notes with
  | nil => simp
  | cons n ns ih =>
    rw [List.map_cons, List.sum_cons, List.filter_cons,
      filter_key_length_of_nodup n.frontmatter key (h n (List.mem_cons_self n ns)),
      ih (fun x hx => h x (List.mem_cons_of_mem n hx))]
    by_cases hs : (alGet n.frontmatter key).isSome = true <;>
      simp [hs, Nat.add_comm]

/-- C1 as amended: the total occurrence count for a key equals the number of
documents containing that key — one increment per document, even when the
value is a sequence (sequence elements feed the per-value counts, not the
total). -/
theorem c1_amended_total_is_document_count (notes : List Note) (key : Str)
    (h : ∀ n ∈ notes, (n.frontmatter.map Prod.fst).Nodup) :
    totalCountOf (getFieldStatistics notes) key =
      (notes.filter (fun n => (alGet n.frontmatter key).isSome)).length := by
  rw [getFieldStatistics, totalCountOf_statsAddNotes,
    sum_counts_eq_filter_length notes key h]
  simp [totalCountOf, alGet]

/-- The total occurrence count that the claim asserts: one per document
containing the key, plus one per string-coercible element of each
sequence-valued entry. -/
def c1ClaimedTotal (notes : List Note) (key : Str) : Nat :=
  (notes.filter (fun n => (alGet n.frontmatter key).isSome)).length +
    (notes.map (fun n =>
      match alGet n.frontmatter key with
      | some (Yaml.Array arr) => (arr.filter (fun item => (yamlAsStr item).isSome)).length
      | _ => 0)).sum

/-- The concrete input refuting C1: one document whose `tags` entry is a
sequence of two strings. -/
def c1CounterNote : Note :=
  Note.new (strL "note1.md")
    [(strL "tags", Yaml.Array [Yaml.String (strL "a"), Yaml.String (strL "b")])]

/-- Counterexample to C1 as stated: the code counts 1 for the single
document, while the claim demands 1 + 2 = 3 for its two sequence elements. -/
theorem c1_counterexample :
    ¬ (totalCountOf (getFieldStatistics [c1CounterNote]) (strL "tags") =
        c1ClaimedTotal [c1CounterNote] (strL "tags")) := by
  decide

/-- Witness for the amended C1 at a concrete two-document list. -/
theorem c1_amended_witness :
    (∀ n ∈ [c1CounterNote, Note.new (strL "note2.md") []],
      (n.frontmatter.map Prod.fst).Nodup) ∧
    totalCountOf (getFieldStatistics [c1CounterNote, Note.new (strL "note2.md") []])
        (strL "tags") =
      ([c1CounterNote, Note.new (strL "note2.md") []].filter
        (fun n => (alGet n.frontmatter (strL "tags")).isSome)).length :=
  ⟨by decide,
    c1_amended_total_is_document_count
      [c1CounterNote, Note.new (strL "note2.md") []] (strL "tags") (by decide)⟩

/-! ## Claim C8: warning recording in the diagnostics aggregator -/

/-- A sequence of `log_warning` calls (message, optional path) folded over
the aggregator. -/
def runWarnings (lg : Logger) (ws : List (Str × Option Str)) : Logger :=
  ws.foldl (fun lg w => lg.logWarning w.1 w.2) lg

theorem logWarning_entries (lg : Logger) (m : Str) (p : Option Str) :
    (lg.logWarning m p).entries = lg.entries ++ [⟨ErrorLevel.Warning, m, p⟩] := by
  unfold Logger.logWarning
  split_ifs <;> rfl

theorem logWarning_lenientCount (lg : Logger) (m : Str) (p : Option Str) :
    (lg.logWarning m p).lenientParsingCount =
      lg.lenientParsingCount +
        (if containsSub m (strL "Used lenient parsing") = true then 1 else 0) := by
  unfold Logger.logWarning
  split_ifs with h <;> simp [h]

theorem logWarning_errorCounts_def (lg : Logger) (m : Str) (p : Option Str) :
    (lg.logWarning m p).errorCounts =
      if containsSub m (strL "Used lenient parsing") = true then lg.errorCounts
      else countsBump lg.errorCounts (extractWarningType m) := by
  unfold Logger.logWarning
  split_ifs <;> rfl

theorem logWarning_errorCounts (lg : Logger) (m : Str) (p : Option Str) (cat : Str) :
    countOf (lg.logWarning m p).errorCounts cat =
      countOf lg.errorCounts cat +
        (if containsSub m (strL "Used lenient parsing") = false ∧
            extractWarningType m = cat then 1 else 0) := by
  rw [logWarning_errorCounts_def]
  by_cases h : containsSub m (strL "Used lenient parsing") = true
  · simp [h]
  · rw [if_neg h, countOf_countsBump]
    have hf : containsSub m (strL "Used lenient parsing") = false := by simpa using h
    by_cases hc : extractWarningType m = cat
    · rw [if_pos hc.symm, if_pos ⟨hf, hc⟩]
    · rw [if_neg (fun he : cat = extractWarningType m => hc he.symm),
        if_neg (fun hand => hc hand.2)]

theorem runWarnings_entries (ws : List (Str × Option Str)) (lg : Logger) :
    (runWarnings lg ws).entries =
      lg.entries ++ ws.map (fun w => ⟨ErrorLevel.Warning, w.1, w.2⟩) := by
  induction ws generalizing lg with
  | nil => simp [runWarnings]
  | cons w rest ih =>
    rw [runWarnings, List.foldl_cons, ← runWarnings, ih, logWarning_entries]
    simp

theorem runWarnings_lenientCount (ws : List (Str × Option Str)) (lg : Logger) :
    (runWarnings lg ws).lenientParsingCount =
      lg.lenientParsingCount +
        (ws.filter (fun w => containsSub w.1 (strL "Used lenient parsing"))).length := by
  induction ws generalizing lg with
  | nil => simp [runWarnings]
  | cons w rest ih =>
    rw [runWarnings, List.foldl_cons, ← runWarnings, ih, logWarning_lenientCount,
      List.filter_cons]
    by_cases h : containsSub w.1 (strL "Used lenient parsing") = true
    · simp only [h, if_true, List.length_cons]
      omega
    · simp only [h, if_false, Bool.false_eq_true]
      omega

theorem runWarnings_errorCounts (ws : List (Str × Option Str)) (lg : Logger) (cat : Str) :
    countOf (runWarnings lg ws).errorCounts cat =
      countOf lg.errorCounts cat +
        (ws.filter (fun w => !(containsSub w.1 (strL "Used lenient parsing")) &&
          (extractWarningType w.1 == cat))).length := by
  induction ws generalizing lg with
  | nil => simp [runWarnings]
  | cons w rest ih =>
    rw [runWarnings, List.foldl_cons, ← runWarnings, ih, logWarning_errorCounts,
      List.filter_cons]
    by_cases h : containsSub w.1 (strL "Used lenient parsing") = true
    · simp [h]
    · by_cases hc : extractWarningType w.1 = cat
      · simp [h, hc, Bool.eq_false_iff]
        omega
      · simp [h, hc, Bool.eq_false_iff]

/-- C8: after any sequence of warning-recording calls, the repaired counter
holds exactly the warnings whose message indicates repair was used and those
contribute nothing to the per-category tallies; every other warning
increments exactly the tally of its category; and every warning is retained
in the entry list, whatever the verbosity. -/
theorem c8_warning_recording (verbose : Bool) (ws : List (Str × Option Str)) :
    (runWarnings (Logger.new verbose) ws).entries =
        ws.map (fun w => ⟨ErrorLevel.Warning, w.1, w.2⟩) ∧
    (runWarnings (Logger.new verbose) ws).lenientParsingCount =
        (ws.filter (fun w => containsSub w.1 (strL "Used lenient parsing"))).length ∧
    ∀ cat, countOf (runWarnings (Logger.new verbose) ws).errorCounts cat =
        (ws.filter (fun w => !(containsSub w.1 (strL "Used lenient parsing")) &&
          (extractWarningType w.1 == cat))).length := by
  refine ⟨?_, ?_, fun cat => ?_⟩
  · rw [runWarnings_entries]
    rfl
  · rw [runWarnings_lenientCount]
    simp [Logger.new]
  · rw [runWarnings_errorCounts]
    simp [Logger.new, countOf, alGet]

/-! ## Lemmas about trimming -/

theorem dropWhile_head_not (p : Char → Bool) (l : Str) (c : Char)
    (h : (l.dropWhile p).head? = some c) : p c = false := by
  induction l with
  | nil => simp at h
  | cons d ds ih =>
    rw [List.dropWhile_cons] at h
    by_cases hd : p d = true
    · exact ih (by simpa [hd] using h)
    · rw [if_neg hd] at h
      cases h
      simpa using hd

theorem trimStart_eq_self_of_head (l : Str)
    (h : ∀ c, l.head? = some c → rustIsWhitespace c = false) : trimStart l = l := by
  cases l with
  | nil => rfl
  | cons c cs => simp [trimStart, List.dropWhile_cons, h c rfl]

theorem trimEnd_eq_self_of_getLast (l : Str)
    (h : ∀ c, l.getLast? = some c → rustIsWhitespace c = false) : trimEnd l = l := by
  have h2 : l.reverse.dropWhile rustIsWhitespace = l.reverse :=
    trimStart_eq_self_of_head l.reverse
      (fun c hc => h c (by rwa [List.head?_reverse] at hc))
  unfold trimEnd
  rw [h2, List.reverse_reverse]

theorem trim_eq_self_of_ends (l : Str)
    (h1 : ∀ c, l.head? = some c → rustIsWhitespace c = false)
    (h2 : ∀ c, l.getLast? = some c → rustIsWhitespace c = false) : trim l = l := by
  rw [trim, trimStart_eq_self_of_head l h1, trimEnd_eq_self_of_getLast l h2]

theorem trimStart_not_ws_of_eq_self {l : Str} {c : Char} {l2 : Str}
    (h : trimStart l = l) (he : l = c :: l2) : rustIsWhitespace c = false := by
  subst he
  by_cases hc : rustIsWhitespace c = true
  · rw [trimStart, List.dropWhile_cons, if_pos hc] at h
    have h2 : trimStart l2 = c :: l2 := h
    have hlen : (trimStart l2).length ≤ l2.length :=
      (List.dropWhile_sublist rustIsWhitespace).length_le
    rw [h2] at hlen
    simp at hlen
  · simpa using hc

theorem trimStart_spacesRep (n : Nat) (l : Str) :
    trimStart (spacesRep n ++ l) = trimStart l := by
  induction n with
  | zero => rfl
  | succ k ih =>
    rw [show spacesRep (k + 1) = ' ' :: spacesRep k from rfl]
    simpa [trimStart, List.dropWhile_cons] using ih

theorem trimStart_cons_ws {c : Char} (h : rustIsWhitespace c = true) (l : Str) :
    trimStart (c :: l) = trimStart l := by
  simp [trimStart, List.dropWhile_cons, h]

theorem trimStart_cons_not_ws {c : Char} (h : rustIsWhitespace c = false) (l : Str) :
    trimStart (c :: l) = c :: l := by
  simp [trimStart, List.dropWhile_cons, h]

theorem exists_trimEnd_append (l : Str) : ∃ r, l = trimEnd l ++ r := by
  refine ⟨(l.reverse.takeWhile rustIsWhitespace).reverse, ?_⟩
  unfold trimEnd
  rw [← List.reverse_append, List.takeWhile_append_dropWhile, List.reverse_reverse]

theorem trimEnd_head?_of_ne_nil {l : Str} (h : trimEnd l ≠ []) :
    (trimEnd l).head? = l.head? := by
  obtain ⟨r, hr⟩ := exists_trimEnd_append l
  conv_rhs => rw [hr]
  rw [List.head?_append_of_ne_nil _ h]

theorem trim_head_not_ws {l : Str} {c : Char} (h : (trim l).head? = some c) :
    rustIsWhitespace c = false := by
  have hne : trim l ≠ [] := by
    intro he
    rw [he] at h
    simp at h
  rw [trim] at h hne
  rw [trimEnd_head?_of_ne_nil hne] at h
  exact dropWhile_head_not rustIsWhitespace l c h

theorem trim_getLast_not_ws {l : Str} {c : Char} (h : (trim l).getLast? = some c) :
    rustIsWhitespace c = false := by
  rw [trim, List.getLast?_eq_head?_reverse] at h
  have : (trimStart l).reverse.dropWhile rustIsWhitespace ≠ [] := by
    intro he
    rw [trimEnd, he] at h
    simp at h
  rw [trimEnd, List.reverse_reverse] at h
  exact dropWhile_head_not rustIsWhitespace (trimStart l).reverse c h

theorem trimEnd_sublist (l : Str) : (trimEnd l).Sublist l := by
  have h := (@List.dropWhile_sublist Char l.reverse rustIsWhitespace).reverse
  rwa [List.reverse_reverse] at h

theorem trim_sublist (l : Str) : (trim l).Sublist l :=
  (trimEnd_sublist (trimStart l)).trans (List.dropWhile_sublist rustIsWhitespace)

/-! ## Lemmas about character search -/

theorem findCharIdx_append (c : Char) {key : Str} (h : c ∉ key) (rest : Str) :
    findCharIdx c (key ++ c :: rest) = some key.length := by
  induction key with
  | nil => simp [findCharIdx]
  | cons d ds ih =>
    have hdc : ¬ (c = d) := fun he => h (List.mem_cons.mpr (Or.inl he))
    have hd : ¬ ((d == c) = true) := by
      simp only [beq_iff_eq]
      exact fun he => hdc he.symm
    rw [List.cons_append, findCharIdx, if_neg hd,
      ih (fun hm => h (List.mem_cons.mpr (Or.inr hm)))]
    simp

theorem findCharIdx_not_mem_take {c : Char} {s : Str} {i : Nat}
    (h : findCharIdx c s = some i) : c ∉ s.take i := by
  induction s generalizing i with
  | nil => simp
  | cons d ds ih =>
    rw [findCharIdx] at h
    by_cases hd : (d == c) = true
    · rw [if_pos hd] at h
      cases h
      simp
    · rw [if_neg hd] at h
      cases hi : findCharIdx c ds with
      | none =>
        rw [hi] at h
        simp [Option.map_none'] at h
      | some j =>
        rw [hi] at h
        rw [Option.map_some'] at h
        cases h
        rw [List.take_succ_cons]
        intro hm
        rcases List.mem_cons.mp hm with he | hm2
        · exact hd (by simp [he.symm])
        · exact ih hi hm2

theorem findCharIdx_decomp {c : Char} {s : Str} {i : Nat}
    (h : findCharIdx c s = some i) : s = s.take i ++ c :: s.drop (i + 1) := by
  induction s generalizing i with
  | nil => simp [findCharIdx] at h
  | cons d ds ih =>
    rw [findCharIdx] at h
    by_cases hd : (d == c) = true
    · rw [if_pos hd] at h
      cases h
      simp [show d = c by simpa using hd]
    · rw [if_neg hd] at h
      cases hi : findCharIdx c ds with
      | none =>
        rw [hi] at h
        simp [Option.map_none'] at h
      | some j =>
        rw [hi] at h
        rw [Option.map_some'] at h
        cases h
        rw [List.take_succ_cons, List.drop_succ_cons, List.cons_append]
        exact congrArg (d :: ·) (ih hi)

/-! ## Lemmas about line splitting and joining -/

theorem getLast?_cons_ne_nil {α : Type} (a : α) {l : List α} (h : l ≠ []) :
    (a :: l).getLast? = l.getLast? := by
  cases l with
  | nil => exact absurd rfl h
  | cons b t => exact List.getLast?_cons_cons

theorem mem_of_getLast?_eq {α : Type} {l : List α} {a : α}
    (h : l.getLast? = some a) : a ∈ l := by
  induction l with
  | nil => simp at h
  | cons b t ih =>
    cases t with
    | nil =>
      simp at h
      simp [h]
    | cons c u =>
      rw [List.getLast?_cons_cons] at h
      exact List.mem_cons_of_mem b (ih h)

theorem splitChar_ne_nil (c : Char) (s : Str) : splitChar c s ≠ [] := by
  cases s with
  | nil => simp [splitChar]
  | cons d ds =>
    rw [splitChar]
    split_ifs
    · simp
    · cases h : splitChar c ds <;> simp

theorem splitChar_of_not_mem {c : Char} {s : Str} (h : c ∉ s) :
    splitChar c s = [s] := by
  induction s with
  | nil => rfl
  | cons d ds ih =>
    have hd : ¬ ((d == c) = true) := by
      simp only [beq_iff_eq]
      exact fun he => h (List.mem_cons.mpr (Or.inl he.symm))
    rw [splitChar, if_neg hd, ih (fun hm => h (List.mem_cons.mpr (Or.inr hm)))]

theorem splitChar_append {c : Char} {x : Str} (h : c ∉ x) (t : Str) :
    splitChar c (x ++ c :: t) = x :: splitChar c t := by
  induction x with
  | nil => simp [splitChar]
  | cons d ds ih =>
    have hd : ¬ ((d == c) = true) := by
      simp only [beq_iff_eq]
      exact fun he => h (List.mem_cons.mpr (Or.inl he.symm))
    rw [List.cons_append, splitChar, if_neg hd,
      ih (fun hm => h (List.mem_cons.mpr (Or.inr hm)))]

theorem mem_splitChar_not_mem {c : Char} {s : Str} {seg : Str}
    (h : seg ∈ splitChar c s) : c ∉ seg := by
  induction s generalizing seg with
  | nil =>
    rw [splitChar] at h
    rcases List.mem_singleton.mp h with rfl
    simp
  | cons d ds ih =>
    rw [splitChar] at h
    by_cases hd : (d == c) = true
    · rw [if_pos hd] at h
      rcases List.mem_cons.mp h with rfl | h2
      · simp
      · exact ih h2
    · rw [if_neg hd] at h
      cases hsp : splitChar c ds with
      | nil => exact absurd hsp (splitChar_ne_nil c ds)
      | cons seg0 rest =>
        rw [hsp] at h
        rcases List.mem_cons.mp h with rfl | h2
        · intro hm
          rcases List.mem_cons.mp hm with rfl | hm2
          · simp at hd
          · exact ih (hsp ▸ List.mem_cons.mpr (Or.inl rfl)) hm2
        · exact ih (hsp ▸ List.mem_cons.mpr (Or.inr h2))

theorem splitChar_eq_nil_nil {c : Char} {s : Str}
    (h : splitChar c s = [[]]) : s = [] := by
  cases s with
  | nil => rfl
  | cons d ds =>
    rw [splitChar] at h
    by_cases hd : (d == c) = true
    · rw [if_pos hd] at h
      have : splitChar c ds = [] := by
        injection h with h1 h2
      exact absurd this (splitChar_ne_nil c ds)
    · rw [if_neg hd] at h
      cases hsp : splitChar c ds with
      | nil => exact absurd hsp (splitChar_ne_nil c ds)
      | cons seg0 rest =>
        rw [hsp] at h
        injection h with h1 h2
        simp at h1

theorem splitChar_getLast_nil {c : Char} {s : Str} (h0 : s ≠ [])
    (h : (splitChar c s).getLast? = some []) : s.getLast? = some c := by
  induction s with
  | nil => exact absurd rfl h0
  | cons d ds ih =>
    rw [splitChar] at h
    by_cases hds : ds = []
    · subst hds
      by_cases hd : (d == c) = true
      · simp [show d = c by simpa using hd]
      · rw [if_neg hd, splitChar] at h
        simp at h
    · have hlast : (d :: ds).getLast? = ds.getLast? := by
        cases ds with
        | nil => exact absurd rfl hds
        | cons e es => exact List.getLast?_cons_cons
      rw [hlast]
      by_cases hd : (d == c) = true
      · rw [if_pos hd] at h
        refine ih hds ?_
        rwa [getLast?_cons_ne_nil _ (splitChar_ne_nil c ds)] at h
      · rw [if_neg hd] at h
        cases hsp : splitChar c ds with
        | nil => exact absurd hsp (splitChar_ne_nil c ds)
        | cons seg0 rest =>
          rw [hsp] at h
          cases hrest : rest with
          | nil =>
            rw [hrest] at h
            simp at h
          | cons r0 rs =>
            rw [hrest] at h
            rw [List.getLast?_cons_cons] at h
            refine ih hds ?_
            rw [hsp, hrest, List.getLast?_cons_cons]
            exact h

theorem rustLines_of_ne_nil {s : Str} (h : s ≠ []) :
    rustLines s =
      (if (splitChar '\n' s).getLast? == some ([] : Str) then
        ((splitChar '\n' s).dropLast).map stripCR
      else ((splitChar '\n' s).dropLast).map stripCR ++ [(splitChar '\n' s).getLastD []]) := by
  cases s with
  | nil => exact absurd rfl h
  | cons d ds => rfl

theorem stripCR_eq_self {l : Str} (h : l.getLast? ≠ some '\r') : stripCR l = l := by
  unfold stripCR
  rw [if_neg (by simpa using h)]

theorem rustLines_of_no_newline {s : Str} (hnl : '\n' ∉ s) (h0 : s ≠ []) :
    rustLines s = [s] := by
  rw [rustLines_of_ne_nil h0, splitChar_of_not_mem hnl]
  have : ¬ (([s] : List Str).getLast? == some ([] : Str)) = true := by
    simp [h0]
  rw [if_neg this]
  simp

theorem rustLines_append_newline {x : Str} (hnl : '\n' ∉ x) (t : Str) :
    rustLines (x ++ '\n' :: t) = stripCR x :: rustLines t := by
  have hne : x ++ '\n' :: t ≠ [] := by simp
  rw [rustLines_of_ne_nil hne, splitChar_append hnl t]
  cases t with
  | nil =>
    rw [show splitChar '\n' [] = [[]] from rfl]
    simp [rustLines]
  | cons e es =>
    have hne2 : (e :: es : Str) ≠ [] := by simp
    rw [rustLines_of_ne_nil hne2]
    cases hsp : splitChar '\n' (e :: es) with
    | nil => exact absurd hsp (splitChar_ne_nil _ _)
    | cons seg0 rest =>
      simp only [List.getLast?_cons_cons, List.dropLast_cons₂, List.map_cons]
      by_cases hl : ((seg0 :: rest).getLast? == some ([] : Str)) = true
      · rw [if_pos hl, if_pos hl]
      · rw [if_neg hl, if_neg hl]
        rw [List.getLastD_eq_getLast?, List.getLastD_eq_getLast?,
          List.getLast?_cons_cons]
        simp

theorem rustLines_ne_nil {s : Str} (h : s ≠ []) : rustLines s ≠ [] := by
  rw [rustLines_of_ne_nil h]
  split_ifs with hc
  · intro he
    have hlast : (splitChar '\n' s).getLast? = some [] := by simpa using hc
    have hdl : (splitChar '\n' s).dropLast = [] := by
      rwa [List.map_eq_nil_iff] at he
    cases hsp : splitChar '\n' s with
    | nil => exact absurd hsp (splitChar_ne_nil _ _)
    | cons seg0 rest =>
      cases hrest : rest with
      | nil =>
        rw [hsp, hrest] at hlast
        simp at hlast
        exact h (splitChar_eq_nil_nil (by rw [hsp, hrest, hlast]))
      | cons r0 rs =>
        rw [hsp, hrest] at hdl
        simp at hdl
  · simp

theorem rustLines_getLast_ne_nil {s : Str} (h : s.getLast? ≠ some '\n') :
    (rustLines s).getLast? ≠ some ([] : Str) := by
  by_cases h0 : s = []
  · subst h0
    simp [rustLines]
  · rw [rustLines_of_ne_nil h0]
    by_cases hc : ((splitChar '\n' s).getLast? == some ([] : Str)) = true
    · exact absurd (splitChar_getLast_nil h0 (by simpa using hc)) h
    · rw [if_neg hc, List.getLast?_concat]
      cases hsp : (splitChar '\n' s).getLast? with
      | none =>
        exact absurd hsp (by
          cases hxx : splitChar '\n' s with
          | nil => exact absurd hxx (splitChar_ne_nil _ _)
          | cons a b => simp)
      | some seg =>
        have hseg : seg ≠ [] := by
          intro he
          rw [he] at hsp
          exact hc (by simp [hsp])
        rw [List.getLastD_eq_getLast?, hsp]
        simpa using hseg

theorem mem_rustLines_no_newline {s : Str} {l : Str} (h : l ∈ rustLines s) :
    '\n' ∉ l := by
  by_cases h0 : s = []
  · subst h0
    simp [rustLines] at h
  · rw [rustLines_of_ne_nil h0] at h
    have hmem : ∀ seg ∈ splitChar '\n' s, '\n' ∉ seg := fun _ hseg =>
      mem_splitChar_not_mem hseg
    have hstrip : ∀ seg : Str, '\n' ∉ seg → '\n' ∉ stripCR seg := by
      intro seg hseg
      unfold stripCR
      split_ifs
      · exact fun hm => hseg ((List.dropLast_sublist seg).mem hm)
      · exact hseg
    split_ifs at h
    · rcases List.mem_map.mp h with ⟨seg, hseg, rfl⟩
      exact hstrip seg (hmem seg ((List.dropLast_sublist _).mem hseg))
    · rcases List.mem_append.mp h with h2 | h2
      · rcases List.mem_map.mp h2 with ⟨seg, hseg, rfl⟩
        exact hstrip seg (hmem seg ((List.dropLast_sublist _).mem hseg))
      · rcases List.mem_singleton.mp h2 with rfl
        rw [List.getLastD_eq_getLast?]
        cases hsp : (splitChar '\n' s).getLast? with
        | none => simp
        | some seg =>
          simp only [Option.getD_some]
          exact hmem seg (mem_of_getLast?_eq hsp)

theorem joinLines_singleton (x : Str) : joinLines [x] = x := by
  simp [joinLines, List.intersperse_singleton]

theorem joinLines_cons_cons (x y : Str) (t : List Str) :
    joinLines (x :: y :: t) = x ++ '\n' :: joinLines (y :: t) := by
  rw [joinLines, List.intersperse_cons_cons, List.flatten_cons, List.flatten_cons,
    joinLines]
  rfl

theorem rustLines_joinLines (xs : List Str) (hne : xs ≠ [])
    (hnl : ∀ l ∈ xs, '\n' ∉ l) (hcr : ∀ l ∈ xs, l.getLast? ≠ some '\r')
    (hlast : xs.getLast? ≠ some ([] : Str)) :
    rustLines (joinLines xs) = xs := by
  induction xs with
  | nil => exact absurd rfl hne
  | cons x rest ih =>
    cases rest with
    | nil =>
      rw [joinLines_singleton]
      have hx : x ≠ [] := by
        intro he
        exact hlast (by simp [he])
      exact rustLines_of_no_newline (hnl x (by simp)) hx
    | cons y t =>
      rw [joinLines_cons_cons, rustLines_append_newline (hnl x (by simp)),
        stripCR_eq_self (hcr x (by simp)),
        ih (by simp) (fun l hl => hnl l (List.mem_cons_of_mem x hl))
          (fun l hl => hcr l (List.mem_cons_of_mem x hl))
          (by rwa [getLast?_cons_ne_nil x (by simp : (y :: t : List Str) ≠ [])] at hlast)]

/-! ## Claim C5: idempotence of the repair pass -/

theorem suffix_getLast?_eq {s t : Str} (h : s <:+ t) (hne : s ≠ []) :
    t.getLast? = s.getLast? := by
  obtain ⟨pre, rfl⟩ := h
  rw [List.getLast?_append]
  cases hs : s.getLast? with
  | none =>
    exfalso
    cases s with
    | nil => exact hne rfl
    | cons b bs =>
      rw [List.getLast?_eq_head?_reverse] at hs
      simp at hs
  | some a => rfl

theorem head?_take_pos {x : Str} {n : Nat} (h : 0 < n) :
    (x.take n).head? = x.head? := by
  cases x with
  | nil => simp
  | cons c cs =>
    obtain ⟨m, rfl⟩ : ∃ m, n = m + 1 := ⟨n - 1, by omega⟩
    rw [List.take_succ_cons]
    rfl

theorem fixLine_eq_passthrough_blank {l : Str}
    (h : (trim l = [] || startsWithChar (trim l) '#') = true) : fixLine l = l := by
  unfold fixLine
  rw [if_pos (by simpa using h)]

theorem fixLine_eq_passthrough_no_colon {l : Str}
    (h1 : ¬ ((trim l = [] || startsWithChar (trim l) '#') = true))
    (hf : findCharIdx ':' (trim l) = none) : fixLine l = l := by
  unfold fixLine
  rw [if_neg h1, hf]

theorem fixLine_eq_passthrough_skip {l : Str} {cp : Nat}
    (h1 : ¬ ((trim l = [] || startsWithChar (trim l) '#') = true))
    (hf : findCharIdx ':' (trim l) = some cp)
    (h2 : (startsWithChar (trimStart ((trim l).drop (cp + 1))) '[' ||
        startsWithChar (trimStart ((trim l).drop (cp + 1))) '{' ||
        startsWithChar (trimStart ((trim l).drop (cp + 1))) '"' ||
        startsWithChar (trimStart ((trim l).drop (cp + 1))) '\'' ||
        trimStart ((trim l).drop (cp + 1)) = []) = true) : fixLine l = l := by
  unfold fixLine
  rw [if_neg h1, hf]
  simp only []
  rw [if_pos h2]

theorem fixLine_eq_passthrough_no_second {l : Str} {cp : Nat}
    (h1 : ¬ ((trim l = [] || startsWithChar (trim l) '#') = true))
    (hf : findCharIdx ':' (trim l) = some cp)
    (h2 : ¬ ((startsWithChar (trimStart ((trim l).drop (cp + 1))) '[' ||
        startsWithChar (trimStart ((trim l).drop (cp + 1))) '{' ||
        startsWithChar (trimStart ((trim l).drop (cp + 1))) '"' ||
        startsWithChar (trimStart ((trim l).drop (cp + 1))) '\'' ||
        trimStart ((trim l).drop (cp + 1)) = []) = true))
    (h3 : ¬ ((containsSub (trimStart ((trim l).drop (cp + 1))) (strL ":") &&
        !startsWithChar (trimStart ((trim l).drop (cp + 1))) '"' &&
        !startsWithChar (trimStart ((trim l).drop (cp + 1))) '\'') = true)) :
    fixLine l = l := by
  unfold fixLine
  rw [if_neg h1, hf]
  simp only []
  rw [if_neg h2, if_neg h3]

theorem fixLine_eq_transform {l : Str} {cp : Nat}
    (h1 : ¬ ((trim l = [] || startsWithChar (trim l) '#') = true))
    (hf : findCharIdx ':' (trim l) = some cp)
    (h2 : ¬ ((startsWithChar (trimStart ((trim l).drop (cp + 1))) '[' ||
        startsWithChar (trimStart ((trim l).drop (cp + 1))) '{' ||
        startsWithChar (trimStart ((trim l).drop (cp + 1))) '"' ||
        startsWithChar (trimStart ((trim l).drop (cp + 1))) '\'' ||
        trimStart ((trim l).drop (cp + 1)) = []) = true))
    (h3 : (containsSub (trimStart ((trim l).drop (cp + 1))) (strL ":") &&
        !startsWithChar (trimStart ((trim l).drop (cp + 1))) '"' &&
        !startsWithChar (trimStart ((trim l).drop (cp + 1))) '\'') = true) :
    fixLine l =
      spacesRep (l.length - (trimStart l).length) ++ (trim l).take cp ++
        ':' :: ' ' :: '"' :: (trimStart ((trim l).drop (cp + 1)) ++ ['"']) := by
  unfold fixLine
  rw [if_neg h1, hf]
  simp only []
  rw [if_neg h2, if_pos h3]

/-- The structured case analysis of `fixLine`: either the line passes through
unchanged, or it is re-emitted in quoted form and the branch conditions hold. -/
theorem fixLine_spec (l : Str) :
    fixLine l = l ∨
    ∃ cp, trim l ≠ [] ∧ startsWithChar (trim l) '#' = false ∧
      findCharIdx ':' (trim l) = some cp ∧
      startsWithChar (trimStart ((trim l).drop (cp + 1))) '[' = false ∧
      startsWithChar (trimStart ((trim l).drop (cp + 1))) '{' = false ∧
      startsWithChar (trimStart ((trim l).drop (cp + 1))) '"' = false ∧
      startsWithChar (trimStart ((trim l).drop (cp + 1))) '\'' = false ∧
      trimStart ((trim l).drop (cp + 1)) ≠ [] ∧
      containsSub (trimStart ((trim l).drop (cp + 1))) (strL ":") = true ∧
      fixLine l =
        spacesRep (l.length - (trimStart l).length) ++ (trim l).take cp ++
          ':' :: ' ' :: '"' :: (trimStart ((trim l).drop (cp + 1)) ++ ['"']) := by
  by_cases h1 : (trim l = [] || startsWithChar (trim l) '#') = true
  · exact Or.inl (fixLine_eq_passthrough_blank h1)
  · cases hf : findCharIdx ':' (trim l) with
    | none => exact Or.inl (fixLine_eq_passthrough_no_colon h1 hf)
    | some cp =>
      by_cases h2 : (startsWithChar (trimStart ((trim l).drop (cp + 1))) '[' ||
          startsWithChar (trimStart ((trim l).drop (cp + 1))) '{' ||
          startsWithChar (trimStart ((trim l).drop (cp + 1))) '"' ||
          startsWithChar (trimStart ((trim l).drop (cp + 1))) '\'' ||
          trimStart ((trim l).drop (cp + 1)) = []) = true
      · exact Or.inl (fixLine_eq_passthrough_skip h1 hf h2)
      · by_cases h3 : (containsSub (trimStart ((trim l).drop (cp + 1))) (strL ":") &&
            !startsWithChar (trimStart ((trim l).drop (cp + 1))) '"' &&
            !startsWithChar (trimStart ((trim l).drop (cp + 1))) '\'') = true
        · refine Or.inr ⟨cp, ?_, ?_, rfl, ?_, ?_, ?_, ?_, ?_, ?_,
            fixLine_eq_transform h1 hf h2 h3⟩
          · intro he
            exact h1 (by simp [he])
          · cases hsw : startsWithChar (trim l) '#' with
            | false => rfl
            | true => exact absurd (by simp [hsw]) h1
          all_goals
            simp only [Bool.or_eq_true, decide_eq_true_eq] at h2
            push_neg at h2
          · exact Bool.eq_false_iff.mpr h2.1.1.1.1
          · exact Bool.eq_false_iff.mpr h2.1.1.1.2
          · exact Bool.eq_false_iff.mpr h2.1.1.2
          · exact Bool.eq_false_iff.mpr h2.1.2
          · exact h2.2
          · simp only [Bool.and_eq_true] at h3
            exact h3.1.1
        · exact Or.inl (fixLine_eq_passthrough_no_second h1 hf h2 h3)

theorem vp_subset (l : Str) (cp : Nat) :
    trimStart ((trim l).drop (cp + 1)) ⊆ l := by
  intro a hm
  exact (trim_sublist l).subset
    ((List.drop_sublist _ _).subset ((List.dropWhile_sublist _).subset hm))

theorem key_subset (l : Str) (cp : Nat) : (trim l).take cp ⊆ l := by
  intro a hm
  exact (trim_sublist l).subset ((List.take_sublist _ _).subset hm)

theorem fixLine_no_newline {l : Str} (h : '\n' ∉ l) : '\n' ∉ fixLine l := by
  rcases fixLine_spec l with he | ⟨cp, _, _, _, _, _, _, _, _, _, he⟩
  · rwa [he]
  · rw [he]
    intro hm
    simp only [List.mem_append, List.mem_cons, spacesRep, List.mem_replicate,
      List.mem_singleton] at hm
    rcases hm with (⟨-, he2⟩ | hk) | he2 | he2 | he2 | hv | he2
    · exact absurd he2 (by decide)
    · exact h (key_subset l cp hk)
    · exact absurd he2 (by decide)
    · exact absurd he2 (by decide)
    · exact absurd he2 (by decide)
    · exact h (vp_subset l cp hv)
    · exact absurd he2 (by decide)

theorem transform_concat (n : Nat) (key vp : Str) :
    spacesRep n ++ key ++ ':' :: ' ' :: '"' :: (vp ++ ['"']) =
      (spacesRep n ++ key ++ ':' :: ' ' :: '"' :: vp) ++ ['"'] := by
  simp

theorem fixLine_getLast_ne_cr {l : Str} (h : l.getLast? ≠ some '\r') :
    (fixLine l).getLast? ≠ some '\r' := by
  rcases fixLine_spec l with he | ⟨cp, _, _, _, _, _, _, _, _, _, he⟩
  · rwa [he]
  · rw [he, transform_concat, List.getLast?_concat]
    simp

theorem fixLine_ne_nil {l : Str} (h : l ≠ []) : fixLine l ≠ [] := by
  rcases fixLine_spec l with he | ⟨cp, _, _, _, _, _, _, _, _, _, he⟩
  · rwa [he]
  · rw [he, transform_concat]
    simp

/-- The per-line repair is idempotent: a transformed line re-enters the
pass-through branch because its value part now starts with a quote. -/
theorem fixLine_idem (l : Str) : fixLine (fixLine l) = fixLine l := by
  rcases fixLine_spec l with he | ⟨cp, hne, hhash, hf, _, _, _, _, hvne, _, he⟩
  · rw [he]
    exact he
  · rw [he]
    have hcolkey : ':' ∉ (trim l).take cp := findCharIdx_not_mem_take hf
    have hX :
        (trim l).take cp ++ ':' :: ' ' :: '"' ::
            (trimStart ((trim l).drop (cp + 1)) ++ ['"']) ≠ [] := by
      intro hcon
      have := congrArg List.length hcon
      simp at this
    -- the head of the untrimmed body is not whitespace and not '#'
    have hHead : ∀ c,
        ((trim l).take cp ++ ':' :: ' ' :: '"' ::
          (trimStart ((trim l).drop (cp + 1)) ++ ['"'])).head? = some c →
        rustIsWhitespace c = false ∧ c ≠ '#' := by
      intro c hc
      by_cases hcp0 : (trim l).take cp = []
      · rw [hcp0] at hc
        simp only [List.nil_append, List.head?_cons] at hc
        cases hc
        exact ⟨by decide, by decide⟩
      · rw [List.head?_append_of_ne_nil _ hcp0] at hc
        have hcp : 0 < cp := by
          by_contra hz
          push_neg at hz
          interval_cases cp
          simp at hcp0
        rw [head?_take_pos hcp] at hc
        refine ⟨trim_head_not_ws hc, ?_⟩
        intro hch
        subst hch
        rw [show startsWithChar (trim l) '#' = ((trim l).head? == some '#') from rfl,
          hc] at hhash
        simp at hhash
    -- the transformed line trims to its body
    have htrim :
        trim (spacesRep (l.length - (trimStart l).length) ++ (trim l).take cp ++
            ':' :: ' ' :: '"' :: (trimStart ((trim l).drop (cp + 1)) ++ ['"'])) =
          (trim l).take cp ++ ':' :: ' ' :: '"' ::
            (trimStart ((trim l).drop (cp + 1)) ++ ['"']) := by
      have h1 : trimStart (spacesRep (l.length - (trimStart l).length) ++
          (trim l).take cp ++
          ':' :: ' ' :: '"' :: (trimStart ((trim l).drop (cp + 1)) ++ ['"'])) =
          (trim l).take cp ++ ':' :: ' ' :: '"' ::
            (trimStart ((trim l).drop (cp + 1)) ++ ['"']) := by
        rw [List.append_assoc, trimStart_spacesRep]
        exact trimStart_eq_self_of_head _ (fun c hc => (hHead c hc).1)
      have h2 : trimEnd ((trim l).take cp ++ ':' :: ' ' :: '"' ::
          (trimStart ((trim l).drop (cp + 1)) ++ ['"'])) =
          (trim l).take cp ++ ':' :: ' ' :: '"' ::
            (trimStart ((trim l).drop (cp + 1)) ++ ['"']) := by
        refine trimEnd_eq_self_of_getLast _ ?_
        intro c hc
        rw [show (trim l).take cp ++ ':' :: ' ' :: '"' ::
              (trimStart ((trim l).drop (cp + 1)) ++ ['"']) =
            ((trim l).take cp ++ ':' :: ' ' :: '"' ::
              trimStart ((trim l).drop (cp + 1))) ++ ['"'] from by simp,
          List.getLast?_concat] at hc
        cases hc
        decide
      rw [trim, h1, h2]
    -- the separator search on the trimmed body lands at the original key end
    have hfind : findCharIdx ':'
        ((trim l).take cp ++ ':' :: ' ' :: '"' ::
          (trimStart ((trim l).drop (cp + 1)) ++ ['"'])) =
        some ((trim l).take cp).length :=
      findCharIdx_append ':' hcolkey _
    -- the new value part starts with a double quote
    have hdrop :
        ((trim l).take cp ++ ':' :: ' ' :: '"' ::
            (trimStart ((trim l).drop (cp + 1)) ++ ['"'])).drop
          (((trim l).take cp).length + 1) =
        ' ' :: '"' :: (trimStart ((trim l).drop (cp + 1)) ++ ['"']) := by
      rw [show (trim l).take cp ++ ':' :: ' ' :: '"' ::
            (trimStart ((trim l).drop (cp + 1)) ++ ['"']) =
          ((trim l).take cp ++ [':']) ++ (' ' :: '"' ::
            (trimStart ((trim l).drop (cp + 1)) ++ ['"'])) from by simp,
        show ((trim l).take cp).length + 1 = ((trim l).take cp ++ [':']).length from
          by simp,
        List.drop_left]
    refine @fixLine_eq_passthrough_skip _ (((trim l).take cp).length) ?_ ?_ ?_
    · rw [htrim]
      intro hcon
      rcases Bool.or_eq_true_iff.mp hcon with hcon | hcon
      · exact hX (by simpa using hcon)
      · cases hhd : ((trim l).take cp ++ ':' :: ' ' :: '"' ::
            (trimStart ((trim l).drop (cp + 1)) ++ ['"'])).head? with
        | none =>
          exact hX (by simpa using hhd)
        | some c =>
          rw [show startsWithChar ((trim l).take cp ++ ':' :: ' ' :: '"' ::
              (trimStart ((trim l).drop (cp + 1)) ++ ['"'])) '#' =
            (((trim l).take cp ++ ':' :: ' ' :: '"' ::
              (trimStart ((trim l).drop (cp + 1)) ++ ['"'])).head? == some '#')
            from rfl, hhd] at hcon
          have : c = '#' := by simpa using hcon
          exact (hHead c hhd).2 this
    · rw [htrim]
      exact hfind
    · rw [htrim, hdrop, trimStart_cons_ws (by decide), trimStart_cons_not_ws (by decide)]
      simp [startsWithChar]

/-- Counterexample to C5 as stated: on the two-newline input the pass first
collapses the trailing empty line produced by the split/join round trip and
then collapses again, so the second application is not a no-op. -/
theorem c5_counterexample :
    ¬ (fixYamlIssues (fixYamlIssues (strL "\n\n")) = fixYamlIssues (strL "\n\n")) := by
  decide

/-- C5 as amended: the repair pass is idempotent on every text that does not
end in a line feed and none of whose lines ends in a carriage return — the
per-line repair is idempotent unconditionally, and under these conditions the
split/join round trip is the identity, so the full pass is a no-op on its own
output. -/
theorem c5_amended_idempotent (s : Str)
    (hnl : s.getLast? ≠ some '\n')
    (hcr : ∀ l ∈ rustLines s, l.getLast? ≠ some '\r') :
    fixYamlIssues (fixYamlIssues s) = fixYamlIssues s := by
  by_cases h0 : s = []
  · subst h0
    rfl
  · have hlines := rustLines_joinLines ((rustLines s).map fixLine)
      (by
        intro hmap
        exact rustLines_ne_nil h0 (List.map_eq_nil_iff.mp hmap))
      (by
        intro l hl
        rcases List.mem_map.mp hl with ⟨x, hx, rfl⟩
        exact fixLine_no_newline (mem_rustLines_no_newline hx))
      (by
        intro l hl
        rcases List.mem_map.mp hl with ⟨x, hx, rfl⟩
        exact fixLine_getLast_ne_cr (hcr x hx))
      (by
        rw [List.getLast?_map]
        intro hcon
        cases hg : (rustLines s).getLast? with
        | none => rw [hg] at hcon; simp at hcon
        | some x =>
          rw [hg] at hcon
          rw [Option.map_some'] at hcon
          have hx : fixLine x = [] := by injection hcon
          have hxne : x ≠ [] := by
            intro he
            exact rustLines_getLast_ne_nil hnl (by rw [hg, he])
          exact fixLine_ne_nil hxne hx)
    unfold fixYamlIssues
    rw [hlines, List.map_map]
    exact congrArg joinLines (List.map_congr_left (fun x _ => fixLine_idem x))

/-- Witness for the amended C5 at a line whose value holds an extra
separator. -/
theorem c5_amended_idempotent_witness :
    (strL "a: b:c").getLast? ≠ some '\n' ∧
    (∀ l ∈ rustLines (strL "a: b:c"), l.getLast? ≠ some '\r') ∧
    fixYamlIssues (fixYamlIssues (strL "a: b:c")) = fixYamlIssues (strL "a: b:c") :=
  ⟨by decide, by decide,
    c5_amended_idempotent (strL "a: b:c") (by decide) (by decide)⟩

/-! ## Claim C3: an unquoted scalar value containing the separator -/

theorem startsWithChar_eq_false_of_not_mem {v : Str} {c : Char} (h0 : v ≠ [])
    (h : c ∉ v) : startsWithChar v c = false := by
  cases v with
  | nil => exact absurd rfl h0
  | cons d ds =>
    have hd : ¬ (d = c) := fun he => h (he ▸ List.mem_cons_self d ds)
    simp [startsWithChar, hd]

/-- Reduction of the extractor on a document whose body splits into exactly
one frontmatter line between the delimiters, followed by a body line. -/
theorem extract_of_lines {content path : Str} {vb lenient : Bool} {L : Str}
    (h1 : startsWithStr (trim content) (strL "---") = true)
    (h2 : rustLines (trim content) =
      [strL "---", strL "title: Test Note", L, strL "---", strL "body"])
    (h3 : trim (strL "title: Test Note" ++ '\n' :: L) ≠ [])
    (h4 : trim L ≠ strL "---") :
    extractFrontmatterWithOptions content path vb lenient =
      (match parseYamlFrontmatter (strL "title: Test Note" ++ '\n' :: L) with
       | .ok parsed => (some parsed, none)
       | .error e =>
         if lenient then
           match tryLenientParse (strL "title: Test Note" ++ '\n' :: L) with
           | .ok parsed =>
             (some parsed,
               some (strL "Used lenient parsing for frontmatter in file " ++ path ++
                 strL " due to: " ++ e))
           | .error _ =>
             (some [],
               some (strL "Failed to parse frontmatter in file " ++ path ++
                 strL " even with lenient parsing: " ++ e))
         else
           (some [],
             some (strL "Failed to parse frontmatter in file " ++ path ++
               strL ": " ++ e))) := by
  have hfd : findDelimFrom 1 [strL "title: Test Note", L, strL "---", strL "body"] =
      some 3 := by
    rw [findDelimFrom, if_neg (by decide), findDelimFrom, if_neg h4,
      findDelimFrom, if_pos (by decide)]
  simp only [extractFrontmatterWithOptions, h1, Bool.not_true, Bool.false_eq_true,
    if_false, h2, List.length_cons, List.length_nil, List.drop_succ_cons,
    List.drop_zero, hfd, List.take_succ_cons, List.take_zero,
    joinLines_cons_cons, joinLines_singleton, if_neg h3]
  norm_num

theorem trimEnd_not_ws_of_eq_self {v : Str} {c : Char} (h : trimEnd v = v)
    (hc : v.getLast? = some c) : rustIsWhitespace c = false := by
  have h2 : trimStart v.reverse = v.reverse := by
    have := congrArg List.reverse h
    rwa [trimEnd, List.reverse_reverse] at this
  rw [List.getLast?_eq_head?_reverse] at hc
  cases hr : v.reverse with
  | nil => rw [hr] at hc; simp at hc
  | cons d ds =>
    rw [hr] at hc h2
    simp only [List.head?_cons, Option.some.injEq] at hc
    subst hc
    exact trimStart_not_ws_of_eq_self h2 rfl

theorem getLast?_of_right {a b : Str} (h : b ≠ []) :
    (a ++ b).getLast? = b.getLast? := by
  rw [List.getLast?_append]
  cases hb : b.getLast? with
  | none =>
    exfalso
    cases b with
    | nil => exact h rfl
    | cons x xs =>
      rw [List.getLast?_eq_head?_reverse] at hb
      simp at hb
  | some x => rfl

theorem line_head? {key : Str} (hk0 : key ≠ []) (rest : Str) :
    (key ++ rest).head? = key.head? := List.head?_append_of_ne_nil key hk0

theorem line_trim_self {key v : Str}
    (hks : trimStart key = key) (hk0 : key ≠ [])
    (hve : trimEnd v = v) (hv0 : v ≠ []) :
    trim (key ++ ':' :: ' ' :: v) = key ++ ':' :: ' ' :: v := by
  refine trim_eq_self_of_ends _ ?_ ?_
  · intro c hc
    rw [line_head? hk0] at hc
    cases key with
    | nil => exact absurd rfl hk0
    | cons d ds =>
      simp only [List.head?_cons, Option.some.injEq] at hc
      subst hc
      exact trimStart_not_ws_of_eq_self hks rfl
  · intro c hc
    rw [show key ++ ':' :: ' ' :: v = (key ++ [':', ' ']) ++ v from by simp,
      getLast?_of_right hv0] at hc
    exact trimEnd_not_ws_of_eq_self hve hc

theorem line_drop {key : Str} (rest : Str) :
    (key ++ ':' :: rest).drop (key.length + 1) = rest := by
  rw [show key ++ ':' :: rest = (key ++ [':']) ++ rest from by simp,
    show key.length + 1 = (key ++ [':']).length from by simp,
    List.drop_left]

theorem parseValue_sep_error {v : Str} (hv0 : v ≠ [])
    (hvc : containsSub v (strL ":") = true) (hvq : startsWithChar v '"' = false)
    (hv1 : startsWithChar v '\'' = false) (hv2 : startsWithChar v '[' = false)
    (hv3 : startsWithChar v '{' = false) :
    parseValue v = .error (strL "mapping values are not allowed in this context") := by
  unfold parseValue
  rw [if_neg hv0, if_neg (by simp [hvq]), if_neg (by simp [hv1]),
    if_neg (by simp [hv2]), if_neg (by simp [hv3]), if_pos hvc]

theorem parseYamlLine_sep_error {key v : Str}
    (hks : trimStart key = key) (hk0 : key ≠ []) (hkc : ':' ∉ key)
    (hkh : startsWithChar key '#' = false)
    (hvs : trimStart v = v) (hve : trimEnd v = v) (hv0 : v ≠ [])
    (hvc : containsSub v (strL ":") = true) (hvq : startsWithChar v '"' = false)
    (hv1 : startsWithChar v '\'' = false) (hv2 : startsWithChar v '[' = false)
    (hv3 : startsWithChar v '{' = false) :
    parseYamlLine (key ++ ':' :: ' ' :: v) =
      .error (strL "mapping values are not allowed in this context") := by
  have htrimL := line_trim_self hks hk0 hve hv0
  have hLne : key ++ ':' :: ' ' :: v ≠ [] := by simp [hk0]
  have hswL : startsWithChar (key ++ ':' :: ' ' :: v) '#' = false := by
    rw [show startsWithChar (key ++ ':' :: ' ' :: v) '#' =
        ((key ++ ':' :: ' ' :: v).head? == some '#') from rfl,
      line_head? hk0]
    exact hkh
  unfold parseYamlLine
  simp only [htrimL]
  rw [if_neg hLne, if_neg (by simp [hswL]), findCharIdx_append ':' hkc]
  simp only []
  rw [line_drop (' ' :: v), trimStart_cons_ws (by decide), hvs,
    parseValue_sep_error hv0 hvc hvq hv1 hv2 hv3]
  rfl

theorem line_trimStart_self {key : Str} (hks : trimStart key = key)
    (hk0 : key ≠ []) (rest : Str) : trimStart (key ++ rest) = key ++ rest := by
  refine trimStart_eq_self_of_head _ ?_
  intro c hc
  rw [line_head? hk0] at hc
  cases key with
  | nil => exact absurd rfl hk0
  | cons d ds =>
    simp only [List.head?_cons, Option.some.injEq] at hc
    subst hc
    exact trimStart_not_ws_of_eq_self hks rfl

theorem fixLine_sep_line {key v : Str}
    (hks : trimStart key = key) (hk0 : key ≠ []) (hkc : ':' ∉ key)
    (hkh : startsWithChar key '#' = false)
    (hvs : trimStart v = v) (hve : trimEnd v = v) (hv0 : v ≠ [])
    (hvc : containsSub v (strL ":") = true) (hvq : startsWithChar v '"' = false)
    (hv1 : startsWithChar v '\'' = false) (hv2 : startsWithChar v '[' = false)
    (hv3 : startsWithChar v '{' = false) :
    fixLine (key ++ ':' :: ' ' :: v) =
      key ++ ':' :: ' ' :: '"' :: (v ++ ['"']) := by
  have hLne : key ++ ':' :: ' ' :: v ≠ [] := by simp [hk0]
  have htrimL := line_trim_self hks hk0 hve hv0
  have hswL : startsWithChar (key ++ ':' :: ' ' :: v) '#' = false := by
    rw [show startsWithChar (key ++ ':' :: ' ' :: v) '#' =
        ((key ++ ':' :: ' ' :: v).head? == some '#') from rfl,
      line_head? hk0]
    exact hkh
  have hvp : trimStart ((trim (key ++ ':' :: ' ' :: v)).drop (key.length + 1)) = v := by
    rw [htrimL, line_drop (' ' :: v), trimStart_cons_ws (by decide), hvs]
  rw [@fixLine_eq_transform _ key.length
    (by
      intro hcon
      rw [htrimL] at hcon
      rcases Bool.or_eq_true_iff.mp hcon with hcon | hcon
      · exact hLne (by simpa using hcon)
      · exact absurd hcon (by simp [hswL]))
    (by rw [htrimL]; exact findCharIdx_append ':' hkc (' ' :: v))
    (by
      rw [hvp]
      intro hcon
      rcases Bool.or_eq_true_iff.mp hcon with hcon | hcon
      · rcases Bool.or_eq_true_iff.mp hcon with hcon | hcon
        · rcases Bool.or_eq_true_iff.mp hcon with hcon | hcon
          · rcases Bool.or_eq_true_iff.mp hcon with hcon | hcon
            · exact absurd hcon (by simp [hv2])
            · exact absurd hcon (by simp [hv3])
          · exact absurd hcon (by simp [hvq])
        · exact absurd hcon (by simp [hv1])
      · exact hv0 (by simpa using hcon))
    (by rw [hvp]; simp [hvc, hvq, hv1]), hvp, htrimL]
  rw [line_trimStart_self hks hk0 (':' :: ' ' :: v)]
  simp only [Nat.sub_self]
  rw [show spacesRep 0 = [] from rfl, List.nil_append, List.take_left]

theorem parseYamlLine_quoted {key v : Str}
    (hks : trimStart key = key) (hke : trimEnd key = key) (hk0 : key ≠ [])
    (hkc : ':' ∉ key) (hkh : startsWithChar key '#' = false)
    (hkt : parsePlainScalar key = Yaml.String key)
    (hv0 : v ≠ []) (hvq : '"' ∉ v) :
    parseYamlLine (key ++ ':' :: ' ' :: '"' :: (v ++ ['"'])) =
      .ok (some (Yaml.String key, Yaml.String v)) := by
  have hLne : key ++ ':' :: ' ' :: '"' :: (v ++ ['"']) ≠ [] := by simp [hk0]
  have htrimL : trim (key ++ ':' :: ' ' :: '"' :: (v ++ ['"'])) =
      key ++ ':' :: ' ' :: '"' :: (v ++ ['"']) := by
    refine trim_eq_self_of_ends _ ?_ ?_
    · intro c hc
      rw [line_head? hk0] at hc
      cases key with
      | nil => exact absurd rfl hk0
      | cons d ds =>
        simp only [List.head?_cons, Option.some.injEq] at hc
        subst hc
        exact trimStart_not_ws_of_eq_self hks rfl
    · intro c hc
      rw [show key ++ ':' :: ' ' :: '"' :: (v ++ ['"']) =
          (key ++ ':' :: ' ' :: '"' :: v) ++ ['"'] from by simp,
        List.getLast?_concat] at hc
      cases hc
      decide
  have hswL : startsWithChar (key ++ ':' :: ' ' :: '"' :: (v ++ ['"'])) '#' = false := by
    rw [show startsWithChar (key ++ ':' :: ' ' :: '"' :: (v ++ ['"'])) '#' =
        ((key ++ ':' :: ' ' :: '"' :: (v ++ ['"'])).head? == some '#') from rfl,
      line_head? hk0]
    exact hkh
  unfold parseYamlLine
  simp only [htrimL]
  rw [if_neg hLne, if_neg (by simp [hswL]),
    findCharIdx_append ':' hkc (' ' :: '"' :: (v ++ ['"']))]
  simp only []
  rw [line_drop (' ' :: '"' :: (v ++ ['"'])), trimStart_cons_ws (by decide),
    trimStart_cons_not_ws (by decide)]
  have hpv : parseValue ('"' :: (v ++ ['"'])) = .ok (Yaml.String v) := by
    unfold parseValue
    rw [if_neg (by simp), if_pos (by simp [startsWithChar])]
    unfold parseQuoted
    simp only []
    rw [if_pos (by
      simp only [List.getLast?_concat, List.dropLast_concat, beq_self_eq_true,
        Bool.true_and, Bool.and_eq_true, Bool.not_eq_true', decide_eq_true_eq]
      refine ⟨by simpa using hvq, by simp⟩)]
    rw [List.dropLast_concat]
  rw [hpv]
  simp only [Except.map, List.take_left, hke, hkt]

theorem parseYamlFrontmatter_titled (L : Str) (hnl : '\n' ∉ L) (hne : L ≠ []) :
    parseYamlFrontmatter (strL "title: Test Note" ++ '\n' :: L) =
      pyStep [(strL "title", Yaml.String (strL "Test Note"))] L := by
  unfold parseYamlFrontmatter
  rw [rustLines_append_newline (by decide), stripCR_eq_self (by decide),
    rustLines_of_no_newline hnl hne, List.foldlM_cons]
  rw [show pyStep [] (strL "title: Test Note") =
      Except.ok [(strL "title", Yaml.String (strL "Test Note"))] from rfl]
  show List.foldlM pyStep [(strL "title", Yaml.String (strL "Test Note"))] [L] = _
  rw [List.foldlM_cons]
  cases h : pyStep [(strL "title", Yaml.String (strL "Test Note"))] L with
  | ok m => rfl
  | error e => rfl

/-- The raw document text of the counterexample: a frontmatter block holding
the single line `key: value`, followed by a body. -/
def c3Doc (key v : Str) : Str :=
  strL "---\n" ++ (key ++ ':' :: ' ' :: v) ++ strL "\n---\nbody"

/-- The raw document text the amended claim quantifies over: a frontmatter
block holding a well-formed `title` line and the line `key: value`, followed
by a body. -/
def c3DocTitled (key v : Str) : Str :=
  strL "---\ntitle: Test Note\n" ++ (key ++ ':' :: ' ' :: v) ++ strL "\n---\nbody"

/-- C3 counterexample (strict parser modelled from the spec): the claim's
lenient half fails when the unquoted separator-bearing value also contains an
inner double quote. For `source: Eberron: The "Last" War p. 277` the repair
re-emits the value quoted with the inner quotes not additionally escaped, the
re-parse rejects the line, and lenient extraction yields an empty mapping
rather than a mapping holding the post-separator text at the key. -/
theorem c3_counterexample :
    ¬ (∃ w, extractFrontmatterWithOptions
        (c3Doc (strL "source") (strL "Eberron: The \"Last\" War p. 277"))
        (strL "test.md") false true =
        (some [(strL "source",
          Yaml.String (trim (' ' :: strL "Eberron: The \"Last\" War p. 277")))],
          some w)) := by
  rintro ⟨w, hw⟩
  have h1 : (extractFrontmatterWithOptions
      (c3Doc (strL "source") (strL "Eberron: The \"Last\" War p. 277"))
      (strL "test.md") false true).1 = some [] := rfl
  rw [hw] at h1
  simp at h1

/-- C3 amended (strict parser modelled from the spec): for a frontmatter
block holding a well-formed line and a `key: value` line whose unquoted
scalar value contains a further separator character but no double quote, and
whose key the parser types as a plain string distinct from the other line's
key: strict extraction yields an empty mapping plus a warning containing
`Failed to parse`, and lenient extraction yields the mapping holding the
well-formed entry and, at the key, the full original text after the first
separator, trimmed, plus a warning containing `Used lenient parsing`. -/
theorem c3_unquoted_separator_value (key v path : Str) (vb : Bool)
    (hks : trimStart key = key) (hke : trimEnd key = key) (hk0 : key ≠ [])
    (hkc : ':' ∉ key) (hkn : '\n' ∉ key) (hkh : startsWithChar key '#' = false)
    (hkt : parsePlainScalar key = Yaml.String key)
    (hktitle : key ≠ strL "title")
    (hvs : trimStart v = v) (hve : trimEnd v = v) (hv0 : v ≠ [])
    (hvc : containsSub v (strL ":") = true) (hvq : '"' ∉ v) (hvn : '\n' ∉ v)
    (hv1 : startsWithChar v '\'' = false) (hv2 : startsWithChar v '[' = false)
    (hv3 : startsWithChar v '{' = false) :
    (∃ w, extractFrontmatterWithOptions (c3DocTitled key v) path vb false =
        (some [], some w) ∧ containsSub w (strL "Failed to parse") = true) ∧
    (∃ w, extractFrontmatterWithOptions (c3DocTitled key v) path vb true =
        (some [(strL "title", Yaml.String (strL "Test Note")),
          (key, Yaml.String (trim (' ' :: v)))], some w) ∧
        containsSub w (strL "Used lenient parsing") = true) := by
  have hvq' : startsWithChar v '"' = false := startsWithChar_eq_false_of_not_mem hv0 hvq
  have htrimSv : trim (' ' :: v) = v := by
    rw [trim, trimStart_cons_ws (by decide), hvs, hve]
  have hnlL : '\n' ∉ key ++ ':' :: ' ' :: v := by
    intro hm
    simp only [List.mem_append, List.mem_cons] at hm
    rcases hm with hm | hm | hm | hm
    · exact hkn hm
    · exact absurd hm (by decide)
    · exact absurd hm (by decide)
    · exact hvn hm
  have hLne : key ++ ':' :: ' ' :: v ≠ [] := by simp [hk0]
  have htrimL := line_trim_self hks hk0 hve hv0
  have hcrL : (key ++ ':' :: ' ' :: v).getLast? ≠ some '\r' := by
    intro hcon
    rw [show key ++ ':' :: ' ' :: v = (key ++ [':', ' ']) ++ v from by simp,
      getLast?_of_right hv0] at hcon
    have := trimEnd_not_ws_of_eq_self hve hcon
    exact absurd this (by decide)
  have hshape : c3DocTitled key v =
      strL "---" ++ '\n' :: (strL "title: Test Note" ++ '\n' ::
        ((key ++ ':' :: ' ' :: v) ++ '\n' :: (strL "---" ++ '\n' :: strL "body"))) := by
    rw [c3DocTitled,
      show strL "---\ntitle: Test Note\n" =
        '-' :: '-' :: '-' :: '\n' :: 't' :: 'i' :: 't' :: 'l' :: 'e' :: ':' :: ' ' ::
        'T' :: 'e' :: 's' :: 't' :: ' ' :: 'N' :: 'o' :: 't' :: 'e' :: '\n' :: [] from rfl,
      show strL "\n---\nbody" =
        '\n' :: '-' :: '-' :: '-' :: '\n' :: 'b' :: 'o' :: 'd' :: 'y' :: [] from rfl,
      show strL "---" = '-' :: '-' :: '-' :: [] from rfl,
      show strL "title: Test Note" = 't' :: 'i' :: 't' :: 'l' :: 'e' :: ':' :: ' ' ::
        'T' :: 'e' :: 's' :: 't' :: ' ' :: 'N' :: 'o' :: 't' :: 'e' :: [] from rfl,
      show strL "body" = 'b' :: 'o' :: 'd' :: 'y' :: [] from rfl]
    simp
  have htrimDoc : trim (c3DocTitled key v) = c3DocTitled key v := by
    rw [hshape]
    refine trim_eq_self_of_ends _ ?_ ?_
    · intro c hc
      rw [List.head?_append_of_ne_nil _ (by decide)] at hc
      rw [show (strL "---").head? = some '-' from rfl] at hc
      cases hc
      decide
    · intro c hc
      rw [show strL "---" ++ '\n' :: (strL "title: Test Note" ++ '\n' ::
            ((key ++ ':' :: ' ' :: v) ++ '\n' :: (strL "---" ++ '\n' :: strL "body"))) =
          (strL "---" ++ '\n' :: (strL "title: Test Note" ++ '\n' ::
            ((key ++ ':' :: ' ' :: v) ++ '\n' :: (strL "---" ++ ['\n'])))) ++
            strL "body" from by simp,
        getLast?_of_right (by decide : strL "body" ≠ ([] : Str)),
        show (strL "body").getLast? = some 'y' from by decide] at hc
      cases hc
      decide
  have hlines : rustLines (trim (c3DocTitled key v)) =
      [strL "---", strL "title: Test Note", key ++ ':' :: ' ' :: v,
        strL "---", strL "body"] := by
    rw [htrimDoc, hshape,
      rustLines_append_newline (by decide : '\n' ∉ strL "---"),
      stripCR_eq_self (by decide),
      rustLines_append_newline (by decide : '\n' ∉ strL "title: Test Note"),
      stripCR_eq_self (by decide),
      rustLines_append_newline hnlL, stripCR_eq_self hcrL,
      rustLines_append_newline (by decide : '\n' ∉ strL "---"),
      stripCR_eq_self (by decide),
      rustLines_of_no_newline (by decide) (by decide)]
  have hstart : startsWithStr (trim (c3DocTitled key v)) (strL "---") = true := by
    rw [htrimDoc, hshape]
    exact startsWithStr_append_self _ _
  have h3 : trim (strL "title: Test Note" ++ '\n' :: (key ++ ':' :: ' ' :: v)) ≠ [] := by
    have hts : trim (strL "title: Test Note" ++ '\n' :: (key ++ ':' :: ' ' :: v)) =
        strL "title: Test Note" ++ '\n' :: (key ++ ':' :: ' ' :: v) := by
      refine trim_eq_self_of_ends _ ?_ ?_
      · intro c hc
        rw [line_head? (by decide : strL "title: Test Note" ≠ ([] : Str))] at hc
        rw [show (strL "title: Test Note").head? = some 't' from rfl] at hc
        cases hc
        decide
      · intro c hc
        rw [show strL "title: Test Note" ++ '\n' :: (key ++ ':' :: ' ' :: v) =
            ((strL "title: Test Note" ++ ['\n']) ++ (key ++ [':', ' '])) ++ v
            from by simp,
          getLast?_of_right hv0] at hc
        exact trimEnd_not_ws_of_eq_self hve hc
    rw [hts]
    simp
  have h4 : trim (key ++ ':' :: ' ' :: v) ≠ strL "---" := by
    rw [htrimL]
    intro he
    have hmem : ':' ∈ key ++ ':' :: ' ' :: v :=
      List.mem_append.mpr (Or.inr (List.mem_cons_self _ _))
    rw [he] at hmem
    exact absurd hmem (by decide)
  have hstepStrict : pyStep [(strL "title", Yaml.String (strL "Test Note"))]
      (key ++ ':' :: ' ' :: v) =
      .error (strL "mapping values are not allowed in this context") := by
    unfold pyStep
    rw [parseYamlLine_sep_error hks hk0 hkc hkh hvs hve hv0 hvc hvq' hv1 hv2 hv3]
    rfl
  have hstrict : parseYamlFrontmatter
      (strL "title: Test Note" ++ '\n' :: (key ++ ':' :: ' ' :: v)) =
      .error (strL "mapping values are not allowed in this context") := by
    rw [parseYamlFrontmatter_titled _ hnlL hLne, hstepStrict]
  have hfixL := fixLine_sep_line hks hk0 hkc hkh hvs hve hv0 hvc hvq' hv1 hv2 hv3
  have hfixTL : fixYamlIssues
      (strL "title: Test Note" ++ '\n' :: (key ++ ':' :: ' ' :: v)) =
      strL "title: Test Note" ++ '\n' :: (key ++ ':' :: ' ' :: '"' :: (v ++ ['"'])) := by
    unfold fixYamlIssues
    rw [rustLines_append_newline (by decide), stripCR_eq_self (by decide),
      rustLines_of_no_newline hnlL hLne, List.map_cons, List.map_cons, List.map_nil,
      show fixLine (strL "title: Test Note") = strL "title: Test Note" from rfl,
      hfixL, joinLines_cons_cons, joinLines_singleton]
  have hnlL2 : '\n' ∉ key ++ ':' :: ' ' :: '"' :: (v ++ ['"']) := by
    intro hm
    simp only [List.mem_append, List.mem_cons, List.mem_singleton] at hm
    rcases hm with hm | hm | hm | hm | hm | hm
    · exact hkn hm
    · exact absurd hm (by decide)
    · exact absurd hm (by decide)
    · exact absurd hm (by decide)
    · exact hvn hm
    · exact absurd hm (by decide)
  have hL2ne : key ++ ':' :: ' ' :: '"' :: (v ++ ['"']) ≠ [] := by simp [hk0]
  have hneT : ¬ (strL "title" = key) := fun he => hktitle he.symm
  have hstepQ : pyStep [(strL "title", Yaml.String (strL "Test Note"))]
      (key ++ ':' :: ' ' :: '"' :: (v ++ ['"'])) =
      .ok [(strL "title", Yaml.String (strL "Test Note")), (key, Yaml.String v)] := by
    unfold pyStep
    rw [parseYamlLine_quoted hks hke hk0 hkc hkh hkt hv0 hvq]
    simp [Except.map, alSet, hneT]
  have hlenient : tryLenientParse
      (strL "title: Test Note" ++ '\n' :: (key ++ ':' :: ' ' :: v)) =
      .ok [(strL "title", Yaml.String (strL "Test Note")), (key, Yaml.String v)] := by
    rw [show tryLenientParse
        (strL "title: Test Note" ++ '\n' :: (key ++ ':' :: ' ' :: v)) =
        parseYamlFrontmatter (fixYamlIssues
          (strL "title: Test Note" ++ '\n' :: (key ++ ':' :: ' ' :: v))) from rfl,
      hfixTL, parseYamlFrontmatter_titled _ hnlL2 hL2ne, hstepQ]
  have hcontainFail : containsSub
      (strL "Failed to parse frontmatter in file " ++ path ++ strL ": " ++
        strL "mapping values are not allowed in this context")
      (strL "Failed to parse") = true := by
    refine containsSub_of_startsWithStr ?_
    rw [show strL "Failed to parse frontmatter in file " =
        strL "Failed to parse" ++ strL " frontmatter in file " from rfl]
    simp only [List.append_assoc]
    exact startsWithStr_append_self _ _
  have hcontainLen : containsSub
      (strL "Used lenient parsing for frontmatter in file " ++ path ++
        strL " due to: " ++ strL "mapping values are not allowed in this context")
      (strL "Used lenient parsing") = true := by
    refine containsSub_of_startsWithStr ?_
    rw [show strL "Used lenient parsing for frontmatter in file " =
        strL "Used lenient parsing" ++ strL " for frontmatter in file " from rfl]
    simp only [List.append_assoc]
    exact startsWithStr_append_self _ _
  constructor
  · refine ⟨_, ?_, hcontainFail⟩
    rw [extract_of_lines hstart hlines h3 h4, hstrict]
    rfl
  · refine ⟨_, ?_, hcontainLen⟩
    rw [extract_of_lines hstart hlines h3 h4, hstrict]
    simp only [if_true]
    rw [hlenient, htrimSv]

/-- Witness for the amended C3 at the claim's concrete scenario: the `source`
line with the unquoted Eberron title containing a colon (and no inner double
quote), below a well-formed `title` line. -/
theorem c3_unquoted_separator_value_witness :
    containsSub (strL "Eberron: Rising from the Last War p. 277") (strL ":") = true ∧
    '"' ∉ strL "Eberron: Rising from the Last War p. 277" ∧
    (∃ w, extractFrontmatterWithOptions
        (c3DocTitled (strL "source") (strL "Eberron: Rising from the Last War p. 277"))
        (strL "test.md") false false = (some [], some w) ∧
        containsSub w (strL "Failed to parse") = true) ∧
    (∃ w, extractFrontmatterWithOptions
        (c3DocTitled (strL "source") (strL "Eberron: Rising from the Last War p. 277"))
        (strL "test.md") false true =
        (some [(strL "title", Yaml.String (strL "Test Note")),
          (strL "source",
            Yaml.String (trim (' ' :: strL "Eberron: Rising from the Last War p. 277")))],
          some w) ∧
        containsSub w (strL "Used lenient parsing") = true) := by
  have h := c3_unquoted_separator_value (strL "source")
    (strL "Eberron: Rising from the Last War p. 277") (strL "test.md") false
    (by decide) (by decide) (by decide) (by decide) (by decide) (by decide)
    rfl (by decide)
    (by decide) (by decide) (by decide) (by decide) (by decide) (by decide)
    (by decide) (by decide) (by decide)
  exact ⟨by decide, by decide, h.1, h.2⟩

end Aktenfux


















